import Mathlib

/-
  Verification development for the MediaHubMX addon client
  (registry manager, addon invocation client, endpoint analyzer).

  The TypeScript sources are shallowly embedded as executable Lean
  definitions.  Machine-level details that cannot influence the verified
  properties are modelled as follows:
  - semantic version strings are modelled as already-parsed
    major/minor/patch triples (the wire schema validates them);
  - URL query strings and fragments are not modelled (no code path under
    verification ever produces or consumes one);
  - asynchronous jobs are executed by a deterministic cooperative
    scheduler: a spawned job runs its synchronous part immediately (as a
    JS async function does up to its first await) and its continuation is
    queued in FIFO order; network effects are supplied by explicit
    oracle functions.
-/

namespace MHX

/-! ### Generic list helpers (lodash `uniq` keeps the first occurrence) -/

def uniqFirstAux {α : Type} [DecidableEq α] (seen : List α) : List α → List α
  | [] => []
  | a :: l => if a ∈ seen then uniqFirstAux seen l else a :: uniqFirstAux (a :: seen) l

/-- lodash.uniq: de-duplicate keeping the first occurrence of each element. -/
def uniqFirst {α : Type} [DecidableEq α] (l : List α) : List α :=
  uniqFirstAux [] l

/-! ### Semantic versions

`semver.gt` on the major/minor/patch triple; absent versions default to
`0.0.0` (`this.props.version ?? "0.0.0"`). -/

abbrev SemVer := Nat × Nat × Nat

def semverGt (a b : SemVer) : Bool :=
  a.1 > b.1 ∨ (a.1 = b.1 ∧ (a.2.1 > b.2.1 ∨ (a.2.1 = b.2.1 ∧ a.2.2 > b.2.2)))

def semverGtOpt (a b : Option SemVer) : Bool :=
  semverGt (a.getD (0, 0, 0)) (b.getD (0, 0, 0))

/-! ### Engines (`src/engine.ts`) -/

inductive Engine where
  | mediahubmx
  | mediaurl
deriving DecidableEq, Repr

def Engine.str : Engine → String
  | .mediahubmx => "mediahubmx"
  | .mediaurl => "mediaurl"

def addonEngines : List Engine := [.mediahubmx, .mediaurl]

/-! ### String scanning helpers

All string manipulation is done on `List Char` with structural
recursion, so that every definition evaluates inside the kernel. -/

/-- Index of the first occurrence of `sub` in `l`, if any. -/
def charsIdx (sub : List Char) : List Char → Option Nat
  | [] => if sub.isEmpty then some 0 else none
  | c :: rest =>
    if sub.isPrefixOf (c :: rest) then some 0 else (charsIdx sub rest).map (· + 1)

/-- JS `String.prototype.includes`. -/
def strContains (s sub : String) : Bool :=
  (charsIdx sub.toList s.toList).isSome

/-- Split `s` at the first occurrence of `sub` (excluded). -/
def strBreakFirst (s sub : String) : Option (String × String) :=
  (charsIdx sub.toList s.toList).map fun i =>
    (String.mk (s.toList.take i), String.mk (s.toList.drop (i + sub.toList.length)))

def strEndsWith (s suffix : String) : Bool :=
  suffix.toList.isSuffixOf s.toList

def strStartsWith (s pre : String) : Bool :=
  pre.toList.isPrefixOf s.toList

def strDropRight1 (s : String) : String :=
  String.mk (s.toList.take (s.toList.length - 1))

def strLength (s : String) : Nat :=
  s.toList.length

/-! ### URLs (the subset of `url-parse` used by `src/utils/addonUrl.ts`)

`url-parse` reports `protocol` with its trailing colon (e.g. `"https:"`);
we keep that convention.  `host` is `hostname` plus an optional port. -/

structure UrlM where
  protocol : String
  hostname : String
  port : String
  pathname : String
deriving DecidableEq, Repr

def UrlM.host (u : UrlM) : String :=
  u.hostname ++ (if u.port = "" then "" else ":" ++ u.port)

def UrlM.toStr (u : UrlM) : String :=
  u.protocol ++ "//" ++ u.host ++ u.pathname

/-- Split `s` at the first `/` into host part and path part. -/
def splitHostPath (s : String) : String × String :=
  let l := s.toList
  (String.mk (l.takeWhile (· ≠ '/')), String.mk (l.dropWhile (· ≠ '/')))

/-- Split `host[:port]` at the first `:`. -/
def splitPort (s : String) : String × String :=
  let l := s.toList
  let h := l.takeWhile (· ≠ ':')
  let rest := l.dropWhile (· ≠ ':')
  (String.mk h, String.mk (rest.drop 1))

def parseUrl (s : String) : UrlM :=
  match strBreakFirst s "://" with
  | some (scheme, rest) =>
    let (hostStr, path) := splitHostPath rest
    let (h, p) := splitPort hostStr
    { protocol := scheme ++ ":", hostname := h, port := p, pathname := path }
  | none => { protocol := "", hostname := "", port := "", pathname := s }

/-- The directory part of a pathname: everything up to and including the
last `/` (used for relative-reference resolution). -/
def dirOf (s : String) : String :=
  let l := s.toList
  if l.contains '/' then String.mk ((l.reverse.dropWhile (· ≠ '/')).reverse) else "/"

/-- `new Url(ref, base)`: RFC-3986 reference resolution for the reference
shapes the client produces (absolute URL, network-path, absolute path,
relative path without dot segments). -/
def resolveUrl (ref : String) (base : UrlM) : UrlM :=
  if strContains ref "://" then parseUrl ref
  else if strStartsWith ref "//" then { parseUrl ("x:" ++ ref) with protocol := base.protocol }
  else if strStartsWith ref "/" then { base with pathname := ref }
  else { base with pathname := dirOf base.pathname ++ ref }

/-! ### `src/utils/addonUrl.ts` -/

/-- Split off the last path segment: `s = front ++ "/" ++ seg` with `seg`
slash-free (the unique position where a `/xxx$` regex can match). -/
def lastSeg (s : String) : Option (String × String) :=
  let l := s.toList
  if l.contains '/' then
    let segR := l.reverse.takeWhile (· ≠ '/')
    some (String.mk ((l.reverse.drop (segR.length + 1)).reverse), String.mk segR.reverse)
  else none

/-- `.replace(/\/[^/]+\.watched$/, "")` -/
def stripWatched (s : String) : String :=
  match lastSeg s with
  | some (front, seg) =>
    if strEndsWith seg ".watched" ∧ strLength seg > 8 then front else s
  | none => s

/-- `.replace(/\/(mediahubmx|mediaurl)[^/]*\.json$/, "")` -/
def stripJson (s : String) : String :=
  match lastSeg s with
  | some (front, seg) =>
    if strEndsWith seg ".json" ∧
        ((strStartsWith seg "mediahubmx" ∧ strLength seg ≥ 15) ∨
         (strStartsWith seg "mediaurl" ∧ strLength seg ≥ 13)) then
      front
    else s
  | none => s

/-- `.replace(/\/$/, "")` -/
def stripSlash (s : String) : String :=
  if strEndsWith s "/" then strDropRight1 s else s

def stripAddonUrl (url : String) : String :=
  stripSlash (stripJson (stripWatched url))

/-- `getCleanAddonUrl(url, baseUrl?, action?, sdkVersion?)`.  The
`sdkVersion` parameter is accepted and ignored, as in the source. -/
def getCleanAddonUrl (url : String) (baseUrl : Option String := none)
    (action : Option (Engine × String) := none)
    (sdkVersion : Option SemVer := none) : String :=
  let _ := sdkVersion
  let temp := parseUrl (baseUrl.getD url)
  let temp := { temp with pathname := stripAddonUrl temp.pathname }
  let temp :=
    match baseUrl with
    | some _ =>
      let t := resolveUrl url temp
      { t with pathname := stripAddonUrl t.pathname }
    | none => temp
  let temp :=
    match action with
    | some (eng, act) =>
      { temp with
        pathname := temp.pathname ++ (if temp.pathname = "/" then "" else "/") ++
          (if act = "addon" then eng.str ++ ".json" else eng.str ++ "-" ++ act ++ ".json") }
    | none => temp
  temp.toStr

/-! ### Addon descriptors (`src/types.ts`, `@mediahubmx/schema`)

Optional list-valued fields (`endpoints`, `actions`, …) are modelled as
plain lists; the accessors in the source normalise `undefined` to `[]`
(`this.props.endpoints ?? []`) before every use we verify. -/

structure Addon where
  id : String
  name : String := ""
  version : Option SemVer := none
  sdkVersion : Option SemVer := none
  engine : Option Engine := none
  endpoints : List String := []
  actions : List String := []
  requirements : List String := []
  triggers : List String := []
  urlPatterns : List String := []
  adult : Bool := false
  isLegacyRepositoryAddon : Bool := false
deriving DecidableEq, Repr

structure AddonInfos where
  requirePath : List String
deriving DecidableEq, Repr

structure ConvertedRequirement where
  endpoints : List String
deriving DecidableEq, Repr

/-! ### `createAddon` (`src/model.ts`)

Normalises endpoints (strip + uniq) and synthesises the id trigger and
the resolve url pattern.  The trailing `getNewValue(addon, oldAddon)`
only preserves object identity for structurally equal values, which is
invisible to a structural model.  `links`/`catalogs`/`pages` are content
metadata opaque to the verified core and are not modelled. -/

def createAddon (addon : Addon) : Addon :=
  let addon := { addon with endpoints := uniqFirst (addon.endpoints.map stripAddonUrl) }
  let addon :=
    if addon.actions.contains "item" ∨ addon.actions.contains "source" ∨
        addon.actions.contains "subtitle" then
      let idTrigger := "id/" ++ addon.id
      if addon.triggers.contains idTrigger then addon
      else { addon with triggers := addon.triggers ++ [idTrigger] }
    else addon
  let addon :=
    if addon.actions.contains "resolve" then
      let urlPattern := "^(mediahubmx-addon:)?" ++ addon.id ++ ":.*$"
      if addon.urlPatterns.contains urlPattern then addon
      else { addon with urlPatterns := addon.urlPatterns ++ [urlPattern] }
    else addon
  addon

/-! ### `BaseAddonClass` / `AddonClass` (`src/addon.ts`)

An addon class couples the (constructor-normalised) props with its
require-path infos.  `immutable` models the `isImmutable()` virtual
method: `false` for every `AddonClass`, `true` for user subclasses that
override it. -/

structure AddonClassM where
  props : Addon
  infos : AddonInfos
  immutable : Bool := false
deriving DecidableEq, Repr

/-- `new AddonClass(props, infos)`: the base constructor runs
`createAddon` over the props. -/
def mkAddonClass (props : Addon) (infos : AddonInfos) : AddonClassM :=
  { props := createAddon props, infos := infos, immutable := false }

namespace AddonClassM

def getEndpoints (a : AddonClassM) : List String :=
  a.props.endpoints

def getRequirements (a : AddonClassM) : List String :=
  a.props.requirements

def isNewerThan (a : AddonClassM) (version : Option SemVer) : Bool :=
  semverGtOpt a.props.version version

/-- `getConvertedRequirements`: an absolute requirement (containing
`//`) is stripped; a relative one is resolved against every endpoint. -/
def getConvertedRequirements (a : AddonClassM) : List ConvertedRequirement :=
  a.getRequirements.map fun req =>
    let endpoints :=
      if strContains req "//" then [stripAddonUrl req]
      else a.getEndpoints.map fun endpoint => getCleanAddonUrl req (some endpoint)
    ⟨uniqFirst endpoints⟩

/-- `this.getEndpoints().find((endpoint) => req.endpoints.includes(endpoint))` -/
def matchesRequirement (a : AddonClassM) (req : ConvertedRequirement) : Bool :=
  a.getEndpoints.any fun endpoint => req.endpoints.contains endpoint

/-- `hasRequirement`: the source iterates `for (const endpoint in
req.endpoints)` — a `for..in` loop over an array, which enumerates the
array's indices `"0"`, `"1"`, … as strings, not its elements — and then
asks whether `other`'s endpoints contain that index string. -/
def hasRequirement (a other : AddonClassM) : Bool :=
  a.getConvertedRequirements.any fun req =>
    (List.range req.endpoints.length).any fun i =>
      other.getEndpoints.contains (toString i)

end AddonClassM

/-! ### The manager registry (`src/manager.ts`) -/

structure ManagerM where
  addons : List AddonClassM := []
  adultOpt : Bool := false
deriving Repr

namespace ManagerM

def getAddon (m : ManagerM) (id : String) : Option AddonClassM :=
  m.addons.find? fun addon => addon.props.id = id

/-- `getAddons()` with the `adult` filter. -/
def getAddons (m : ManagerM) : List AddonClassM :=
  m.addons.filter fun addon => m.adultOpt ∨ ¬addon.props.adult

/-- `Manager.createAddonClass(props, infos, additionalEndpoints?, force)`.
When the existing entry is newer and `force` is unset, `props` is
rebound to `old.props` before the endpoint union (so the incoming
endpoints no longer take part in it). -/
def createAddonClass (m : ManagerM) (props : Addon) (infos : AddonInfos)
    (additionalEndpoints : Option (List String) := none)
    (force : Bool := false) : AddonClassM :=
  let finish := fun (props : Addon) =>
    let props :=
      match additionalEndpoints with
      | some ae => { props with endpoints := ae ++ props.endpoints }
      | none => props
    mkAddonClass props infos
  match m.addons.find? (fun addon => addon.props.id = props.id) with
  | some old =>
    if old.immutable then old
    else
      let props := if ¬force ∧ old.isNewerThan props.version then old.props else props
      finish { props with endpoints := props.endpoints ++ old.getEndpoints }
  | none => finish props

/-- `addAddonClass(addon, index?)`: JS `splice` semantics, including the
insertion at `length - 1` (before the last element) for a new id. -/
def addAddonClass (m : ManagerM) (addon : AddonClassM)
    (index : Option Nat := none) : ManagerM :=
  match m.addons.findIdx? (fun other => other.props.id = addon.props.id), index with
  | none, _ =>
    let pos := index.getD (m.addons.length - 1)
    { m with addons := m.addons.take pos ++ [addon] ++ m.addons.drop pos }
  | some i, some pos =>
    let rest := m.addons.take i ++ m.addons.drop (i + 1)
    { m with addons := rest.take pos ++ [addon] ++ rest.drop pos }
  | some i, none =>
    { m with addons := m.addons.set i addon }

def addAddonProps (m : ManagerM) (props : Addon)
    (index : Option Nat := none) : ManagerM :=
  m.addAddonClass (m.createAddonClass props ⟨[]⟩) index

def removeAddon (m : ManagerM) (id : String) : ManagerM :=
  match m.addons.findIdx? (fun addon => addon.props.id = id) with
  | some i => { m with addons := m.addons.take i ++ m.addons.drop (i + 1) }
  | none => m

end ManagerM

/-! ### Endpoint failover (`AddonClass.iterateEndpoints` / `AddonClass.call`)

The generator keeps a `triedEndpoints` set and repeatedly picks the
first endpoint of the (self-reordering) descriptor list that was not
tried yet.  `onError` records the error and, when the failing endpoint
is still the head of the list, rotates it to the end.  The caller loop
in `call` (for every non-bootstrap action) builds the action URL for the
yielded endpoint, performs the request (modelled by the `oracle`
function) and either succeeds or reports the failure to the iterator.

The loop is driven by explicit fuel so that it evaluates inside the
kernel; `callEndpoints` supplies `endpoints.length + 1`, which is proved
sufficient (`fuelOut` is unreachable). -/

def pickUntried (endpoints tried : List String) : Option String :=
  endpoints.find? fun e => ¬tried.contains e

/-- `onError`: move the endpoint to the end of the list if it is still
the first one. -/
def rotateOnError (endpoints : List String) (endpoint : String) : List String :=
  if endpoints.head? = some endpoint then endpoints.tail ++ [endpoint] else endpoints

/-- The action URL `call` builds for an endpoint. -/
def callUrl (engine : Engine) (sdk : Option SemVer) (outAction : String)
    (endpoint : String) : String :=
  getCleanAddonUrl endpoint none (some (engine, outAction)) sdk

inductive CallResult (α : Type) where
  | ok (data : α) (endpoint : String) (url : String)
  | err (msg : String)
  | fuelOut
deriving DecidableEq, Repr

/-- One `call` execution over the endpoint iterator.  Returns the
result, the final endpoint list of the descriptor, and the trace of
endpoints tried (in order). -/
def callLoopF {α : Type} (oracle : String → Except String α)
    (engine : Engine) (sdk : Option SemVer) (outAction : String) :
    Nat → List String → List String → Option String → List String →
      CallResult α × List String × List String
  | 0, endpoints, _, _, trace => (.fuelOut, endpoints, trace)
  | fuel + 1, endpoints, tried, lastError, trace =>
    match pickUntried endpoints tried with
    | none =>
      match lastError with
      | some e => (.err e, endpoints, trace)
      | none => (.err "No working endpoint found", endpoints, trace)
    | some e =>
      let url := callUrl engine sdk outAction e
      match oracle url with
      | .error msg =>
        callLoopF oracle engine sdk outAction fuel
          (rotateOnError endpoints e) (tried ++ [e]) (some msg) (trace ++ [e])
      | .ok data => (.ok data e url, endpoints, trace ++ [e])

/-- The non-bootstrap branch of `AddonClass.call` (`action !== "addon"`,
engine already discovered). -/
def callEndpoints {α : Type} (oracle : String → Except String α)
    (engine : Engine) (sdk : Option SemVer) (outAction : String)
    (endpoints : List String) : CallResult α × List String × List String :=
  callLoopF oracle engine sdk outAction (endpoints.length + 1) endpoints [] none []

/-! ### Task sub-protocol loop (`AddonClass.call`, response handling)

`data` is the response just received; `script` holds the responses the
remote side returns to the successive task posts (the network is an
explicit script here).  `posts` and `invoked` are the observable traces:
task responses posted back (always to the same resolved `url`) and the
task types whose handler was executed. -/

inductive WireData where
  | taskRequest (taskId : String) (ty : String) (payload : String)
  | final (errorField : Option String) (value : String)
deriving DecidableEq, Repr

def WireData.isTaskReq : WireData → Bool
  | .taskRequest .. => true
  | .final .. => false

structure TaskPost where
  url : String
  taskId : String
  errPayload : Option String
  okPayload : Option String
deriving DecidableEq, Repr

def taskLoop (handlers : String → Option (String → Except String String))
    (validate : String → Except String String) (url : String) :
    WireData → List WireData → List TaskPost → List String →
      Except String (String × List TaskPost × List String)
  | .final errorField value, _, posts, invoked =>
    match errorField with
    | some e => .error e
    | none => (validate value).map fun v => (v, posts, invoked)
  | .taskRequest taskId ty payload, script, posts, invoked =>
    let handled : Except String String :=
      match handlers ty with
      | none => .error ("Unknown task type " ++ ty)
      | some fn => fn payload
    let invoked := match handlers ty with
      | some _ => invoked ++ [ty]
      | none => invoked
    let post : TaskPost :=
      match handled with
      | .ok v => { url := url, taskId := taskId, errPayload := none, okPayload := some v }
      | .error m => { url := url, taskId := taskId, errPayload := some m, okPayload := none }
    match script with
    | [] => .error "task fetch failed: no response"
    | d :: rest => taskLoop handlers validate url d rest (posts ++ [post]) invoked

/-- Run the loop on the remaining response sequence, with the traces
accumulated so far. -/
def taskLoopFrom (handlers : String → Option (String → Except String String))
    (validate : String → Except String String) (url : String)
    (posts : List TaskPost) (invoked : List String) (seq : List WireData) :
    Except String (String × List TaskPost × List String) :=
  match seq with
  | [] => .error "no response"
  | d :: rest => taskLoop handlers validate url d rest posts invoked

/-- Entry point: the first response plus the scripted follow-ups. -/
def taskLoopRun (handlers : String → Option (String → Except String String))
    (validate : String → Except String String) (url : String)
    (seq : List WireData) : Except String (String × List TaskPost × List String) :=
  taskLoopFrom handlers validate url [] [] seq

/-- The task response the loop posts for a given task request
(specification mirror used to state the theorems). -/
def expectedPost (handlers : String → Option (String → Except String String))
    (url : String) : WireData → TaskPost
  | .taskRequest taskId ty payload =>
    match handlers ty with
    | none => { url := url, taskId := taskId,
                errPayload := some ("Unknown task type " ++ ty), okPayload := none }
    | some fn =>
      match fn payload with
      | .ok v => { url := url, taskId := taskId, errPayload := none, okPayload := some v }
      | .error m => { url := url, taskId := taskId, errPayload := some m, okPayload := none }
  | .final _ _ => { url := url, taskId := "", errPayload := none, okPayload := none }

/-- The handler invocation a task request causes (none when no handler
is registered for the type). -/
def invokedOf (handlers : String → Option (String → Except String String)) :
    WireData → Option String
  | .taskRequest _ ty _ => if (handlers ty).isSome then some ty else none
  | .final _ _ => none

/-! ### Endpoint analyzer (`src/utils/analyzeEndpoints.ts`)

The analyzer expands every endpoint into one probe URL per engine
dialect (de-duplicated by URL) and races the probes.  The model runs the
race under the deterministic schedule in which each probe settles before
the next one starts; the stagger timer and the cooperative cancellation
only influence timing.  The `probe` oracle stands for one
`EndpointFetcher` outcome: the classified results, or the error the
probe ended with. -/

structure AddonResponseResult where
  isServer : Bool
  engine : Engine
  endpoints : Option (List String)
  props : Option Addon
deriving DecidableEq, Repr

def analyzeTodo (endpoints : List String) (engine : Option Engine) :
    List (String × Engine) :=
  let engines := match engine with | some e => [e] | none => addonEngines
  endpoints.foldl
    (fun todo endpoint =>
      engines.foldl
        (fun todo eng =>
          let url := getCleanAddonUrl endpoint none (some (eng, "addon"))
          if todo.any (fun ep => ep.1 = url) then todo else todo ++ [(url, eng)])
        todo)
    []

/-- The race loop: a probe that errors is dropped without affecting the
others; the first successful classification wins; when everything
errored and nothing succeeded the result stays `null`. -/
def analyzeScan (probe : String → Engine → Except String (List AddonResponseResult)) :
    List (String × Engine) → Option (List AddonResponseResult)
  | [] => none
  | (url, eng) :: rest =>
    match probe url eng with
    | .ok r => some r
    | .error _ => analyzeScan probe rest

def analyzeEndpointsM (probe : String → Engine → Except String (List AddonResponseResult))
    (endpoints : List String) (engine : Option Engine) :
    Option (List AddonResponseResult) :=
  analyzeScan probe (analyzeTodo endpoints engine)

/-! ### User input expansion (`src/utils/mutateUserInput.ts`) -/

/-- JS `String.prototype.replace` with a plain-string pattern: replace
the first occurrence. -/
def strReplaceFirst (s pat repl : String) : String :=
  match strBreakFirst s pat with
  | some (a, b) => a ++ repl ++ b
  | none => s

/-- `mutateUrl(url, { pathname })`: `%s` is replaced by the current
pathname without its trailing slash. -/
def mutateUrlPathname (u : UrlM) (pat : String) : UrlM :=
  { u with pathname := strReplaceFirst pat "%s" (stripSlash u.pathname) }

def mutateUserInput (inputUrl : String) : List String :=
  let inputUrl := if ¬strContains inputUrl "://" then "x://" ++ inputUrl else inputUrl
  let url := parseUrl inputUrl
  let url := if url.pathname = "" then { url with pathname := "/" } else url
  let tempTodo : List UrlM :=
    -- `url-parse` reports the protocol with its colon ("x:"), so the
    -- `protocol === "" || protocol === "x"` branch of the source (with
    -- its port-80/443 and private-network special cases) never fires.
    if url.protocol = "" ∨ url.protocol = "x" then
      if url.port = "80" then [{ url with protocol := "http:", port := "" }]
      else if url.port = "443" then [{ url with protocol := "https:", port := "" }]
      else
        (if strStartsWith url.host "localhost" ∨ strStartsWith url.host "127." ∨
            strStartsWith url.host "192.168." then
          [{ url with
              protocol := "http:"
              port := if url.port = "" then "3000" else url.port }]
        else []) ++ [{ url with protocol := "https:" }, { url with protocol := "http:" }]
    else [{ url with protocol := "https:" }, { url with protocol := "http:" }]
  (tempTodo.foldl
    (fun todo u =>
      let todo :=
        if ¬strContains u.pathname "/mediahubmx.json" then
          todo ++ [mutateUrlPathname u "%s/mediahubmx.json"]
        else todo
      todo ++ [u])
    []).map UrlM.toStr

/-! ### The resolution engine (`Manager.load`)

The engine is modelled as a deterministic cooperative scheduler over an
explicit job queue.  A spawned async job runs its synchronous part
right away (exactly what a JS async function does up to its first
`await`) and queues a continuation carrying the pending network call;
the drain loop pops continuations in FIFO order.  The three synchronous
mutually recursive helpers of `load` (`handleRequirement`, `checkAddon`
and the synchronous part of `loadViaAddon`) become the constructors of
`SyncCall`, executed by the single fuelled function `runSync`; the fuel
stands for the cycle guard the source does not have. -/

inductive EndpointType where
  | unknown
  | server
  | addon
deriving DecidableEq, Repr

inductive Refresh where
  | none
  | required
  | all
deriving DecidableEq, Repr

structure LoadCfg where
  discover : Bool := false
  maxDepth : Nat := 2
  refresh : Refresh := .required
deriving DecidableEq, Repr

structure LoadInput where
  addonClass : Option AddonClassM := none
  addonProps : Option Addon := none
  endpoints : Option (List String) := none
  url : Option String := none
  userInput : Option String := none
deriving DecidableEq, Repr

inductive InputCase where
  | viaClass (ac : AddonClassM)
  | viaProps (p : Addon)
  | viaEndpoints (es : List String)
  | viaUrl (u : String)
  | viaUser (u : String)
  | empty
deriving DecidableEq, Repr

/-- The branch the `load` input loop takes for an input element,
following the JS truthiness of each field (an empty string is falsy). -/
def LoadInput.caseOf (i : LoadInput) : InputCase :=
  let userCase :=
    match i.userInput with
    | some v => if v ≠ "" then InputCase.viaUser v else .empty
    | none => .empty
  match i.addonClass with
  | some ac => .viaClass ac
  | none =>
  match i.addonProps with
  | some p => .viaProps p
  | none =>
  match i.endpoints with
  | some es => .viaEndpoints es
  | none =>
  match i.url with
  | some u => if u ≠ "" then .viaUrl u else userCase
  | none => userCase

/-- `throw new Error("Found an empty input element")` fires exactly for
these inputs. -/
def LoadInput.isEmptyInput (i : LoadInput) : Bool :=
  i.caseOf = .empty

inductive LoadJob where
  | callJob (addon : AddonClassM) (isKnown : Bool) (path : List String)
      (rootIndex : Option Nat)
  | endpointsJob (urls : List String) (eptype : EndpointType) (isKnown : Bool)
      (path : List String) (rootIndex : Option Nat)
  | repoJob (addon : AddonClassM) (path : List String)
deriving DecidableEq, Repr

structure LoadState where
  mgr : ManagerM
  available : List (String × AddonClassM) := []
  ignore : List String := []
  rootAddons : List (Nat × String) := []
  errs : List String := []
  updates : List String := []
  jobs : List LoadJob := []
deriving Repr

/-- The network boundary of `load`: the bootstrap call an
`AddonClass.call({action: "addon"})` performs, the endpoint analyzer,
and the legacy repository call.  `.ok none` for `callAddon` models a
response that fails the `isAddonResponse` check. -/
structure LoadOracles where
  callAddon : AddonClassM → Except String (Option Addon)
  analyze : List String → EndpointType → Option (List AddonResponseResult)
  repository : AddonClassM → Except String (List Addon)

def availLookup (st : LoadState) (id : String) : Option AddonClassM :=
  (st.available.find? fun kv => kv.1 = id).map (·.2)

def availSet (st : LoadState) (id : String) (a : AddonClassM) : LoadState :=
  if st.available.any (fun kv => kv.1 = id) then
    { st with available := st.available.map fun kv => if kv.1 = id then (id, a) else kv }
  else { st with available := st.available ++ [(id, a)] }

def ignoreAdd (st : LoadState) (s : String) : LoadState :=
  if st.ignore.contains s then st else { st with ignore := st.ignore ++ [s] }

def ignoreAddAll (st : LoadState) (ss : List String) : LoadState :=
  ss.foldl ignoreAdd st

def rootSet (st : LoadState) (i : Nat) (id : String) : LoadState :=
  if st.rootAddons.any (fun kv => kv.1 = i) then
    { st with rootAddons := st.rootAddons.map fun kv => if kv.1 = i then (i, id) else kv }
  else { st with rootAddons := st.rootAddons ++ [(i, id)] }

/-- `addAvailable(props, requirePath, additionalEndpoints?)`. -/
def addAvailable (st : LoadState) (props : Addon) (requirePath : List String)
    (additionalEndpoints : Option (List String) := none) : AddonClassM × LoadState :=
  match availLookup st props.id with
  | some av =>
    if av.isNewerThan props.version then (av, st)
    else
      let addon := st.mgr.createAddonClass props ⟨requirePath⟩
        (some (additionalEndpoints.getD [] ++ av.getEndpoints))
      (addon, availSet st props.id addon)
  | none =>
    let addon := st.mgr.createAddonClass props ⟨requirePath⟩
      (some (additionalEndpoints.getD []))
    (addon, availSet st props.id addon)

inductive SyncCall where
  | handleReq (req : ConvertedRequirement) (eptype : EndpointType) (isKnown : Bool)
      (path : List String) (rootIndex : Option Nat)
  | checkAdd (addon : AddonClassM) (isKnown : Bool) (path : List String)
      (rootIndex : Option Nat)
  | spawnViaAddon (addon : AddonClassM) (isKnown : Bool) (path : List String)
      (rootIndex : Option Nat)
deriving DecidableEq, Repr

/-- The synchronous core of `load`.  `.handleReq` is
`handleRequirement`, `.checkAdd` is `checkAddon`, `.spawnViaAddon` is
the synchronous part of `loadViaAddon` (ignore bookkeeping plus the
immutable short-circuit; the network call becomes a queued
`LoadJob.callJob`).  `.handleReq` also runs the synchronous part of
`loadViaEndpoints` (URL normalisation and ignore bookkeeping) before
queueing the `endpointsJob`. -/
def runSync (cfg : LoadCfg) : Nat → SyncCall → LoadState → LoadState
  | 0, _, st => st
  | fuel + 1, c, st =>
    match c with
    | .handleReq req eptype isKnown path rootIndex =>
      if cfg.discover ∧ path.length ≥ cfg.maxDepth then st
      else
        match (st.available.map (·.2)).find? (fun other => other.matchesRequirement req) with
        | some other =>
          let pair := addAvailable st other.props path (some (other.getEndpoints ++ req.endpoints))
          let other := pair.1
          let st := pair.2
          if cfg.refresh = .all ∨ (cfg.refresh = .required ∧ isKnown) then
            runSync cfg fuel (.spawnViaAddon other isKnown path rootIndex) st
          else
            runSync cfg fuel (.checkAdd other isKnown path rootIndex) st
        | none =>
          if req.endpoints.any (fun e => ¬st.ignore.contains e) then
            let acc := req.endpoints.foldl
              (fun (acc : List String × LoadState) endpoint =>
                let url := stripAddonUrl endpoint
                let st := ignoreAdd (ignoreAdd acc.2 url) endpoint
                (if acc.1.contains url then acc.1 else acc.1 ++ [url], st))
              ([], st)
            let st := acc.2
            { st with jobs := st.jobs ++ [.endpointsJob acc.1 eptype isKnown path rootIndex] }
          else st
    | .checkAdd addon isKnown path rootIndex =>
      let path := path ++ [addon.props.id]
      if ¬cfg.discover ∧ ¬isKnown ∧
          ¬(st.mgr.addons.any fun other => other.hasRequirement addon) then st
      else
        let st :=
          match st.mgr.getAddon addon.props.id with
          | none =>
            { st with mgr := st.mgr.addAddonClass addon,
                      updates := st.updates ++ [addon.props.id] }
          | some other =>
            if other.props = addon.props then st
            else
              { st with mgr := st.mgr.addAddonClass addon,
                        updates := st.updates ++ [addon.props.id] }
        let st :=
          match rootIndex with
          | some ri => if path.length = 1 then rootSet st ri addon.props.id else st
          | none => st
        let st := addon.getConvertedRequirements.foldl
          (fun st req => runSync cfg fuel (.handleReq req .unknown isKnown path rootIndex) st)
          st
        if addon.props.isLegacyRepositoryAddon ∧ ¬st.ignore.contains addon.props.id then
          if ¬cfg.discover ∨ path.length < cfg.maxDepth then
            let st := ignoreAdd st addon.props.id
            { st with jobs := st.jobs ++ [.repoJob addon path] }
          else st
        else st
    | .spawnViaAddon addon isKnown path rootIndex =>
      let st := ignoreAddAll st addon.getEndpoints
      if addon.immutable then runSync cfg fuel (.checkAdd addon isKnown path rootIndex) st
      else { st with jobs := st.jobs ++ [.callJob addon isKnown path rootIndex] }

/-- The continuation of a job after its awaited network call resolves
(`loadViaAddon`, `loadViaEndpoints`, `loadViaRepository`); errors go to
the `onError` callback, collected in `errs`. -/
def runJob (cfg : LoadCfg) (oracles : LoadOracles) (fuel : Nat)
    (job : LoadJob) (st : LoadState) : LoadState :=
  match job with
  | .callJob addon isKnown path rootIndex =>
    match oracles.callAddon addon with
    | .error e => { st with errs := st.errs ++ [e] }
    | .ok none => { st with errs := st.errs ++ ["Addon does not return addon data"] }
    | .ok (some res) =>
      let pair := addAvailable st res path (some addon.getEndpoints)
      runSync cfg fuel (.checkAdd pair.1 isKnown path rootIndex) pair.2
  | .endpointsJob urls eptype isKnown path rootIndex =>
    match oracles.analyze urls eptype with
    | none => { st with errs := st.errs ++ ["No MediaHubMX addon found"] }
    | some results =>
      results.foldl
        (fun st r =>
          match r.props with
          | some p =>
            let pair := addAvailable st p path
            runSync cfg fuel
              (.checkAdd pair.1 (if r.isServer then false else isKnown) path rootIndex)
              pair.2
          | none =>
            match r.endpoints with
            | some es =>
              runSync cfg fuel
                (.handleReq ⟨es⟩ (if r.isServer then .server else .addon)
                  (if r.isServer then false else isKnown) path rootIndex)
                st
            | none => st)
        st
  | .repoJob addon path =>
    match oracles.repository addon with
    | .error e => { st with errs := st.errs ++ [e] }
    | .ok list =>
      list.foldl
        (fun st props =>
          let endpoints := (props.endpoints.map fun endpoint =>
            addon.getEndpoints.map fun base => (resolveUrl endpoint (parseUrl base)).toStr).flatten
          runSync cfg fuel (.handleReq ⟨endpoints⟩ .addon false path none) st)
        st

/-- The fan-in barrier: loop until the pending set is empty. -/
def drainJobs (cfg : LoadCfg) (oracles : LoadOracles) (syncFuel : Nat) :
    Nat → LoadState → LoadState
  | 0, st => st
  | fuel + 1, st =>
    match st.jobs with
    | [] => st
    | j :: rest => drainJobs cfg oracles syncFuel fuel (runJob cfg oracles syncFuel j { st with jobs := rest })

/-- The input loop of `load`.  `rootIndex` preserves the sort order of
the root addons; an empty input element raises. -/
def processInputs (cfg : LoadCfg) (oracles : LoadOracles) (syncFuel : Nat) :
    List LoadInput → Nat → LoadState → Except String (LoadState × Nat)
  | [], rootIndex, st => .ok (st, rootIndex)
  | input :: rest, rootIndex, st =>
    match input.caseOf with
    | .viaClass ac =>
      let rootIdx := if ac.infos.requirePath.length = 0 then some rootIndex else none
      let pair :=
        if ac.immutable then (ac, st)
        else addAvailable st ac.props ac.infos.requirePath
      let st := runSync cfg syncFuel (.spawnViaAddon pair.1 true ac.infos.requirePath rootIdx) pair.2
      processInputs cfg oracles syncFuel rest
        (if ac.infos.requirePath.length = 0 then rootIndex + 1 else rootIndex) st
    | .viaProps p =>
      let pair := addAvailable st p []
      let st := runSync cfg syncFuel (.spawnViaAddon pair.1 true [] (some rootIndex)) pair.2
      processInputs cfg oracles syncFuel rest (rootIndex + 1) st
    | .viaEndpoints es =>
      let st := runSync cfg syncFuel (.handleReq ⟨es⟩ .unknown true [] (some rootIndex)) st
      processInputs cfg oracles syncFuel rest (rootIndex + 1) st
    | .viaUrl u =>
      let st := runSync cfg syncFuel (.handleReq ⟨[u]⟩ .unknown true [] (some rootIndex)) st
      processInputs cfg oracles syncFuel rest (rootIndex + 1) st
    | .viaUser u =>
      if st.ignore.contains u then processInputs cfg oracles syncFuel rest rootIndex st
      else
        let st := runSync cfg syncFuel
          (.handleReq ⟨mutateUserInput u⟩ .unknown true [] (some rootIndex)) st
        processInputs cfg oracles syncFuel rest (rootIndex + 1) st
    | .empty => .error "Found an empty input element"

/-- The depth-first requirement walk of the final ordering phase
(the local `iter` of `load`): push the addon, then recurse into every
registry addon that matches one of its requirements and was not pushed
yet.  The pushed addon itself is not checked against `sorted` (the
source pushes unconditionally). -/
def sortIter (addons : List AddonClassM) : Nat → AddonClassM → List AddonClassM → List AddonClassM
  | 0, _, sorted => sorted
  | fuel + 1, addon, sorted =>
    let sorted := sorted ++ [addon]
    addon.getConvertedRequirements.foldl
      (fun sorted req =>
        addons.foldl
          (fun sorted other =>
            if ¬sorted.contains other ∧ other.matchesRequirement req then
              sortIter addons fuel other sorted
            else sorted)
          sorted)
      sorted

/-- Walk every recorded root in root-index order. -/
def sortRoots (addons : List AddonClassM) (rootAddons : List (Nat × String))
    (rootIndex : Nat) (fuel : Nat) : List AddonClassM :=
  (List.range rootIndex).foldl
    (fun sorted i =>
      match (rootAddons.find? fun kv => kv.1 = i).map (·.2) with
      | none => sorted
      | some id =>
        match addons.find? (fun addon => addon.props.id = id) with
        | none => sorted
        | some addon => sortIter addons fuel addon sorted)
    []

/-- Non-discovery final ordering: the registry is replaced by the walk
output (on a length mismatch the source logs a warning and replaces it
all the same). -/
def applySort (st : LoadState) (rootIndex : Nat) : LoadState :=
  let sorted := sortRoots st.mgr.addons st.rootAddons rootIndex (st.mgr.addons.length + 1)
  { st with mgr := { st.mgr with addons := sorted } }

/-- The root addons the final ordering phase walks: for each recorded
root index, the registry addon whose id was recorded for it (in
root-index order).  This is the root set of the specification's
depth-first walk. -/
def rootsOf (addons : List AddonClassM) (rootAddons : List (Nat × String))
    (rootIndex : Nat) : List AddonClassM :=
  (List.range rootIndex).filterMap fun i =>
    ((rootAddons.find? fun kv => kv.1 = i).map (·.2)).bind
      fun id => addons.find? fun addon => addon.props.id = id

/-- `load` up to (excluding) the final ordering phase: seed the
version-arbitration table, process the inputs (the manager re-feeds its
own addons first), drain the job set. -/
def loadCore (cfg : LoadCfg) (oracles : LoadOracles) (syncFuel drainFuel : Nat)
    (m : ManagerM) (inputs : List LoadInput)
    (availableAddonProps : List Addon := []) : Except String (LoadState × Nat) :=
  let st : LoadState := { mgr := m }
  let st := availableAddonProps.foldl (fun st p => (addAvailable st p []).2) st
  let allInputs := (m.getAddons.map fun a => ({ addonClass := some a } : LoadInput)) ++ inputs
  (processInputs cfg oracles syncFuel allInputs 0 st).map fun pair =>
    (drainJobs cfg oracles syncFuel drainFuel pair.1, pair.2)

def loadM (cfg : LoadCfg) (oracles : LoadOracles) (syncFuel drainFuel : Nat)
    (m : ManagerM) (inputs : List LoadInput)
    (availableAddonProps : List Addon := []) : Except String LoadState :=
  (loadCore cfg oracles syncFuel drainFuel m inputs availableAddonProps).map fun pair =>
    if cfg.discover then pair.1 else applySort pair.1 pair.2

/-- The require-paths that can legitimately reach the registry in a
discovery load: a path handed in directly (an input or a pre-existing
addon) or one shorter than the depth bound. -/
abbrev PathOk (base : List (List String)) (N : Nat) (p : List String) : Prop :=
  p ∈ base ∨ p.length < N

/-- The queued-job part of the depth invariant. -/
abbrev JobOk (base : List (List String)) (N : Nat) : LoadJob → Prop
  | .callJob _ _ path _ => PathOk base N path
  | .endpointsJob _ _ _ path _ => PathOk base N path
  | .repoJob _ _ => True

/-- The precondition a synchronous call must satisfy to keep the depth
invariant. -/
abbrev CallOk (base : List (List String)) (N : Nat) : SyncCall → Prop
  | .handleReq _ _ _ _ _ => True
  | .checkAdd addon _ _ _ => PathOk base N addon.infos.requirePath
  | .spawnViaAddon addon _ path _ =>
    PathOk base N addon.infos.requirePath ∧ PathOk base N path

/-- The depth invariant over the whole load state. -/
abbrev StOk (base : List (List String)) (N : Nat) (st : LoadState) : Prop :=
  (∀ a ∈ st.mgr.addons, PathOk base N a.infos.requirePath) ∧
  (∀ kv ∈ st.available, PathOk base N (kv : String × AddonClassM).2.infos.requirePath) ∧
  (∀ j ∈ st.jobs, JobOk base N j)

/-- Reachability along requirement edges, starting from a set of root
addons: the relation the specification's walk follows. -/
inductive ReachChain (roots : List AddonClassM) : AddonClassM → Prop
  | root (a : AddonClassM) : a ∈ roots → ReachChain roots a
  | step (a b : AddonClassM) : ReachChain roots a →
      (∃ req ∈ a.getConvertedRequirements, b.matchesRequirement req = true) →
      ReachChain roots b

def isOkE {ε α : Type} : Except ε α → Bool
  | .ok _ => true
  | .error _ => false

/-- Decidable equality for `Except`, so that concrete runs can be
checked by `decide`. -/
instance {ε α : Type} [DecidableEq ε] [DecidableEq α] : DecidableEq (Except ε α) :=
  fun a b =>
    match a, b with
    | .error e, .error f => if h : e = f then isTrue (by rw [h]) else isFalse (by simp [h])
    | .error _, .ok _ => isFalse (by simp)
    | .ok _, .error _ => isFalse (by simp)
    | .ok x, .ok y => if h : x = y then isTrue (by rw [h]) else isFalse (by simp [h])

/-! ### Concrete fixtures used by the witnesses and counterexamples -/

def fixOldClass : AddonClassM :=
  mkAddonClass { id := "x", version := some (1, 0, 0), endpoints := ["https://e1"] } ⟨[]⟩

def fixImm : AddonClassM :=
  { props := createAddon { id := "x", version := some (1, 0, 0), endpoints := ["https://e1"] },
    infos := ⟨[]⟩, immutable := true }

def fixReqA : AddonClassM :=
  mkAddonClass { id := "a", endpoints := ["https://a"], requirements := ["https://b"] } ⟨[]⟩

def fixReqB : AddonClassM :=
  mkAddonClass { id := "b", endpoints := ["https://b"] } ⟨[]⟩

/-- Two root inputs where the first requires the second (duplicate-root
scenario). -/
def fixR1 : Addon :=
  { id := "r1", version := some (1, 0, 0), endpoints := ["https://r1"],
    requirements := ["https://r2"] }

def fixR2 : Addon :=
  { id := "r2", version := some (1, 0, 0), endpoints := ["https://r2"] }

def fixOrcDupRoots : LoadOracles :=
  { callAddon := fun a =>
      if a.props.id = "r1" then .ok (some fixR1)
      else if a.props.id = "r2" then .ok (some fixR2)
      else .error "unreachable",
    analyze := fun _ _ => none,
    repository := fun _ => .error "unreachable" }

/-- A root addon declaring requirement path `/child`, served by addon
`child` (the non-discovery scenario of the specification). -/
def fixRoot : Addon :=
  { id := "root", version := some (1, 0, 0), endpoints := ["https://h/root"],
    requirements := ["/child"] }

def fixChild : Addon :=
  { id := "child", version := some (1, 0, 0), endpoints := ["https://h/child"] }

def fixOrcRootChild : LoadOracles :=
  { callAddon := fun a =>
      if a.props.id = "root" then .ok (some fixRoot) else .error "unreachable",
    analyze := fun urls _ =>
      if urls = ["https://h/child"] then
        some [{ isServer := false, engine := .mediahubmx,
                endpoints := some ["https://h/child"], props := some fixChild }]
      else none,
    repository := fun _ => .error "unreachable" }

/-- A manager still holding a child addon (require-path `["p"]`) from an
earlier, deeper load. -/
def fixChildQ : Addon :=
  { id := "c", version := some (1, 0, 0), endpoints := ["https://c"] }

def fixMgrReload : ManagerM :=
  { addons := [mkAddonClass fixChildQ ⟨["p"]⟩] }

def fixOrcReload : LoadOracles :=
  { callAddon := fun a =>
      if a.props.id = "c" then .ok (some fixChildQ) else .error "unreachable",
    analyze := fun _ _ => none,
    repository := fun _ => .error "unreachable" }

/-- A call oracle succeeding at endpoint `https://b` only (for the C5
witness). -/
def fixCallOracle : String → Except String String := fun u =>
  if u = callUrl .mediahubmx none "catalog" "https://b" then .ok "D"
  else .error ("fail " ++ u)

def fixErrOf : String → String := fun e =>
  "fail " ++ callUrl .mediahubmx none "catalog" e

/-- Handlers for the C6 witness: a fetch and a toast task handler. -/
def fixHandlers : String → Option (String → Except String String) := fun ty =>
  if ty = "fetch" then some (fun p => .ok ("F" ++ p))
  else if ty = "toast" then some (fun p => .ok ("T" ++ p))
  else none

/-! ### Helper lemmas about `uniqFirst` -/

theorem mem_uniqFirstAux {α : Type} [DecidableEq α] (seen l : List α) (a : α) :
    a ∈ uniqFirstAux seen l ↔ a ∈ l ∧ a ∉ seen := by
  induction l generalizing seen with
  | nil => simp [uniqFirstAux]
  | cons x t ih =>
    by_cases hx : x ∈ seen
    · simp only [uniqFirstAux, if_pos hx, ih, List.mem_cons]
      constructor
      · rintro ⟨h1, h2⟩; exact ⟨Or.inr h1, h2⟩
      · rintro ⟨h1 | h1, h2⟩
        · subst h1; exact absurd hx h2
        · exact ⟨h1, h2⟩
    · simp only [uniqFirstAux, if_neg hx, List.mem_cons, ih]
      constructor
      · rintro (rfl | ⟨h1, h2⟩)
        · exact ⟨Or.inl rfl, hx⟩
        · exact ⟨Or.inr h1, fun hs => h2 (Or.inr hs)⟩
      · rintro ⟨rfl | h1, h2⟩
        · exact Or.inl rfl
        · by_cases hax : a = x
          · exact Or.inl hax
          · exact Or.inr ⟨h1, by simp [hax, h2]⟩

theorem mem_uniqFirst {α : Type} [DecidableEq α] (l : List α) (a : α) :
    a ∈ uniqFirst l ↔ a ∈ l := by
  simp [uniqFirst, mem_uniqFirstAux]

theorem nodup_uniqFirstAux {α : Type} [DecidableEq α] (seen l : List α) :
    (uniqFirstAux seen l).Nodup := by
  induction l generalizing seen with
  | nil => simp [uniqFirstAux]
  | cons x t ih =>
    by_cases hx : x ∈ seen
    · simpa [uniqFirstAux, if_pos hx] using ih seen
    · simp only [uniqFirstAux, if_neg hx, List.nodup_cons]
      refine ⟨fun hmem => ?_, ih (x :: seen)⟩
      exact ((mem_uniqFirstAux _ _ _).1 hmem).2 (List.mem_cons_self _ _)

theorem nodup_uniqFirst {α : Type} [DecidableEq α] (l : List α) :
    (uniqFirst l).Nodup :=
  nodup_uniqFirstAux [] l

theorem uniqFirstAux_eq_self {α : Type} [DecidableEq α] (seen l : List α)
    (hseen : ∀ a ∈ l, a ∉ seen) (hl : l.Nodup) : uniqFirstAux seen l = l := by
  induction l generalizing seen with
  | nil => rfl
  | cons x t ih =>
    have hx : x ∉ seen := hseen x (List.mem_cons_self _ _)
    simp only [uniqFirstAux, if_neg hx]
    rw [ih (x :: seen) ?_ (List.nodup_cons.1 hl).2]
    intro a ha
    simp only [List.mem_cons]
    rintro (rfl | hs)
    · exact (List.nodup_cons.1 hl).1 ha
    · exact hseen a (List.mem_cons_of_mem _ ha) hs

theorem uniqFirst_eq_self {α : Type} [DecidableEq α] {l : List α} (hl : l.Nodup) :
    uniqFirst l = l :=
  uniqFirstAux_eq_self [] l (by simp) hl

theorem toFinset_uniqFirst {α : Type} [DecidableEq α] (l : List α) :
    (uniqFirst l).toFinset = l.toFinset := by
  ext a; simp [mem_uniqFirst]

theorem length_uniqFirst {α : Type} [DecidableEq α] (l : List α) :
    (uniqFirst l).length = l.toFinset.card := by
  rw [← toFinset_uniqFirst, List.toFinset_card_of_nodup (nodup_uniqFirst l)]

theorem length_uniqFirst_append_ge {α : Type} [DecidableEq α] (l₁ l₂ : List α) :
    (uniqFirst l₁).length ≤ (uniqFirst (l₁ ++ l₂)).length ∧
      (uniqFirst l₂).length ≤ (uniqFirst (l₁ ++ l₂)).length := by
  simp only [length_uniqFirst, List.toFinset_append]
  exact ⟨Finset.card_le_card (Finset.subset_union_left),
    Finset.card_le_card (Finset.subset_union_right)⟩

/-! ### Helper lemmas about `find?`, `findIdx?` and `set` -/

theorem set_find?_self {α : Type} (l : List α) (p : α → Bool) (a : α)
    (h : l.find? p = some a) :
    ∃ i, l.findIdx? p = some i ∧ l.set i a = l := by
  induction l with
  | nil => simp [List.find?] at h
  | cons x t ih =>
    by_cases hx : p x
    · refine ⟨0, ?_, ?_⟩
      · simp [List.findIdx?, hx]
      · have hax : x = a := by simpa [List.find?, hx] using h
        simp [hax]
    · have h' : t.find? p = some a := by simpa [List.find?, hx] using h
      obtain ⟨i, hi, hset⟩ := ih h'
      refine ⟨i + 1, ?_, by simp [hset]⟩
      simp [List.findIdx?_cons, hx, hi]

theorem map_id_of_mem {α : Type} (l : List α) (f : α → α) (h : ∀ a ∈ l, f a = a) :
    l.map f = l := by
  induction l with
  | nil => rfl
  | cons a t ih =>
    simp only [List.map_cons, h a (List.mem_cons_self _ _),
      ih fun x hx => h x (List.mem_cons_of_mem _ hx)]

theorem createAddon_id (a : Addon) : (createAddon a).id = a.id := by
  simp only [createAddon]
  split_ifs <;> rfl

theorem createAddon_version (a : Addon) : (createAddon a).version = a.version := by
  simp only [createAddon]
  split_ifs <;> rfl

theorem createAddon_endpoints (a : Addon) :
    (createAddon a).endpoints = uniqFirst (a.endpoints.map stripAddonUrl) := by
  simp only [createAddon]
  split_ifs <;> rfl

theorem find?_middle {α : Type} (p : α → Bool) (pre : List α) (x : α) (post : List α)
    (hpre : ∀ a ∈ pre, p a = false) (hx : p x = true) :
    (pre ++ x :: post).find? p = some x := by
  induction pre with
  | nil => simp [List.find?, hx]
  | cons y t ih =>
    have hy := hpre y (List.mem_cons_self _ _)
    simp only [List.cons_append, List.find?, hy]
    exact ih fun a ha => hpre a (List.mem_cons_of_mem _ ha)

theorem findIdx?_middle {α : Type} (p : α → Bool) (pre : List α) (x : α) (post : List α)
    (hpre : ∀ a ∈ pre, p a = false) (hx : p x = true) :
    (pre ++ x :: post).findIdx? p = some pre.length := by
  induction pre with
  | nil => simp [List.findIdx?_cons, hx]
  | cons y t ih =>
    have hy := hpre y (List.mem_cons_self _ _)
    simp only [List.cons_append, List.findIdx?_cons, hy, Bool.false_eq_true, if_false,
      List.findIdx?_succ, ih fun a ha => hpre a (List.mem_cons_of_mem _ ha),
      Option.map_some', List.length_cons]

theorem set_middle {α : Type} (pre : List α) (x : α) (post : List α) (y : α) :
    (pre ++ x :: post).set pre.length y = pre ++ y :: post := by
  induction pre with
  | nil => rfl
  | cons a t ih => simp [List.set, ih]

/-- `matchesRequirement` decides exactly endpoint-set intersection. -/
theorem matchesRequirement_iff_inter (a : AddonClassM) (req : ConvertedRequirement) :
    a.matchesRequirement req = true ↔ ∃ e ∈ a.getEndpoints, e ∈ req.endpoints := by
  simp [AddonClassM.matchesRequirement, List.any_eq_true]

/-- C4: registering a new descriptor for an id whose registry entry is
immutable leaves the registry unchanged: the immutable instance stays in
place (the very same entry, hence reference equality in the source) with
all its properties untouched. -/
theorem claim_C4_theorem (m : ManagerM) (props : Addon) (old : AddonClassM)
    (hfind : m.addons.find? (fun a => a.props.id = props.id) = some old)
    (himm : old.immutable = true) :
    (m.addAddonProps props).addons = m.addons := by
  have hid : old.props.id = props.id := by
    have := List.find?_some hfind
    simpa using this
  have hcreate : m.createAddonClass props ⟨[]⟩ = old := by
    unfold ManagerM.createAddonClass
    rw [hfind]
    simp [himm]
  obtain ⟨i, hfi, hset⟩ := set_find?_self m.addons _ old hfind
  have hpred : (fun (other : AddonClassM) => decide (other.props.id = old.props.id))
      = fun (other : AddonClassM) => decide (other.props.id = props.id) := by
    funext other
    simp [hid]
  unfold ManagerM.addAddonProps ManagerM.addAddonClass
  rw [hcreate, hpred, hfi]
  dsimp only
  exact hset

/-- C4 witness: a registry holding an immutable entry for `"x"` is left
exactly as it was by registering a version 9.0.0 descriptor for `"x"`. -/
theorem claim_C4_witness :
    ((⟨[fixImm], false⟩ : ManagerM).addAddonProps
        { id := "x", version := some (9, 0, 0), endpoints := ["https://e9"] }).addons
      = [fixImm] :=
  claim_C4_theorem ⟨[fixImm], false⟩
    { id := "x", version := some (9, 0, 0), endpoints := ["https://e9"] }
    fixImm (by decide) (by decide)

/-- C7 (code bug): addon `a` declares a requirement whose resolved
endpoint set is exactly `["https://b"]`, and addon `b` exposes exactly
that endpoint (their endpoint sets intersect, as `matchesRequirement`
itself confirms) — yet `hasRequirement a b` is `false`, because the
source iterates `for (const endpoint in req.endpoints)` over the array
indices `"0"`, `"1"`, … instead of the endpoint values. -/
theorem claim_C7_theorem :
    AddonClassM.hasRequirement fixReqA fixReqB = false ∧
    fixReqA.getConvertedRequirements = [⟨["https://b"]⟩] ∧
    fixReqB.getEndpoints = ["https://b"] ∧
    AddonClassM.matchesRequirement fixReqB ⟨["https://b"]⟩ = true := by
  refine ⟨by decide, by decide, by decide, by decide⟩

/-- C1 (amended): merging a second descriptor `b` for an existing,
non-immutable entry `old` keeps a single registry entry.  When the
existing entry is not newer, the incoming properties win and the
endpoint list is the incoming endpoints followed by the existing ones,
normalised and de-duplicated — no endpoint of either side is lost and
the de-duplicated length is at least `max` of both sides.  When the
existing entry is strictly newer, its properties win and its endpoint
list is kept; the incoming endpoints are discarded (this is where the
original claim fails). -/
theorem claim_C1_theorem (pre post : List AddonClassM) (old : AddonClassM) (b : Addon)
    (adult : Bool)
    (hpre : ∀ a ∈ pre, a.props.id ≠ b.id) (hold : old.props.id = b.id)
    (himm : old.immutable = false) :
    ∃ merged : AddonClassM,
      (ManagerM.addAddonProps ⟨pre ++ old :: post, adult⟩ b).addons = pre ++ merged :: post ∧
      merged.props.id = b.id ∧
      (old.isNewerThan b.version = false →
        merged.props.version = b.version ∧
        merged.props.endpoints = uniqFirst ((b.endpoints ++ old.getEndpoints).map stripAddonUrl) ∧
        (∀ e ∈ old.getEndpoints, stripAddonUrl e ∈ merged.props.endpoints) ∧
        (∀ e ∈ b.endpoints, stripAddonUrl e ∈ merged.props.endpoints) ∧
        (b.endpoints.Nodup → (∀ e ∈ b.endpoints, stripAddonUrl e = e) →
          old.getEndpoints.Nodup → (∀ e ∈ old.getEndpoints, stripAddonUrl e = e) →
          max b.endpoints.length old.getEndpoints.length ≤ merged.props.endpoints.length)) ∧
      (old.isNewerThan b.version = true →
        merged.props.version = old.props.version ∧
        (∀ e, e ∈ merged.props.endpoints ↔ e ∈ old.getEndpoints.map stripAddonUrl)) := by
  have hpre' : ∀ a ∈ pre, (fun (x : AddonClassM) => decide (x.props.id = b.id)) a = false := by
    intro a ha
    simpa using hpre a ha
  have hx : (fun (x : AddonClassM) => decide (x.props.id = b.id)) old = true := by
    simpa using hold
  have hfind : (pre ++ old :: post).find? (fun a => a.props.id = b.id) = some old :=
    find?_middle _ pre old post hpre' hx
  have key : ∀ merged : AddonClassM,
      ManagerM.createAddonClass ⟨pre ++ old :: post, adult⟩ b ⟨[]⟩ = merged →
      merged.props.id = b.id →
      (ManagerM.addAddonProps ⟨pre ++ old :: post, adult⟩ b).addons = pre ++ merged :: post := by
    intro merged hcreate hmid
    unfold ManagerM.addAddonProps ManagerM.addAddonClass
    rw [hcreate]
    have hpred : (fun (other : AddonClassM) => decide (other.props.id = merged.props.id))
        = fun (x : AddonClassM) => decide (x.props.id = b.id) := by
      funext other
      simp [hmid]
    rw [hpred, findIdx?_middle _ pre old post hpre' hx]
    dsimp only
    exact set_middle pre old post merged
  by_cases hnew : old.isNewerThan b.version = true
  · -- the existing entry is strictly newer: its props win
    refine ⟨mkAddonClass
        { old.props with endpoints := old.props.endpoints ++ old.getEndpoints } ⟨[]⟩,
      ?_, ?_, ?_, ?_⟩
    · refine key _ ?_ ?_
      · unfold ManagerM.createAddonClass
        rw [hfind]
        simp [himm, hnew]
      · show (createAddon _).id = b.id
        rw [createAddon_id]
        exact hold
    · show (createAddon _).id = b.id
      rw [createAddon_id]
      exact hold
    · intro hf
      rw [hnew] at hf
      exact absurd hf (by simp)
    · intro _
      constructor
      · show (createAddon _).version = _
        rw [createAddon_version]
      · intro e
        show e ∈ (createAddon _).endpoints ↔ _
        rw [createAddon_endpoints, mem_uniqFirst]
        show e ∈ (old.props.endpoints ++ old.getEndpoints).map stripAddonUrl ↔ _
        rw [List.map_append, List.mem_append]
        have : old.props.endpoints = old.getEndpoints := rfl
        rw [this, or_self]
  · -- the incoming descriptor is not older: it wins
    have hnewf : old.isNewerThan b.version = false := by
      simpa using hnew
    refine ⟨mkAddonClass { b with endpoints := b.endpoints ++ old.getEndpoints } ⟨[]⟩,
      ?_, ?_, ?_, ?_⟩
    · refine key _ ?_ ?_
      · unfold ManagerM.createAddonClass
        rw [hfind]
        simp [himm, hnewf]
      · show (createAddon _).id = b.id
        rw [createAddon_id]
    · show (createAddon _).id = b.id
      rw [createAddon_id]
    · intro _
      have hend : (mkAddonClass { b with endpoints := b.endpoints ++ old.getEndpoints }
            ⟨[]⟩).props.endpoints
          = uniqFirst ((b.endpoints ++ old.getEndpoints).map stripAddonUrl) := by
        show (createAddon _).endpoints = _
        rw [createAddon_endpoints]
      refine ⟨?_, hend, ?_, ?_, ?_⟩
      · show (createAddon _).version = _
        rw [createAddon_version]
      · intro e he
        rw [hend, mem_uniqFirst]
        exact List.mem_map_of_mem _ (List.mem_append_right _ he)
      · intro e he
        rw [hend, mem_uniqFirst]
        exact List.mem_map_of_mem _ (List.mem_append_left _ he)
      · intro hnd hfix hnd2 hfix2
        have hmapeq : (b.endpoints ++ old.getEndpoints).map stripAddonUrl
            = b.endpoints ++ old.getEndpoints := by
          refine map_id_of_mem _ _ fun e he => ?_
          rcases List.mem_append.1 he with h | h
          · exact hfix e h
          · exact hfix2 e h
        rw [hend, hmapeq]
        have h2 := length_uniqFirst_append_ge b.endpoints old.getEndpoints
        rw [uniqFirst_eq_self hnd] at h2
        rw [uniqFirst_eq_self hnd2] at h2
        exact max_le h2.1 h2.2
    · intro hf
      rw [hnewf] at hf
      exact absurd hf (by simp)

/-- C1 counterexample: the registry holds `x` at version 2.0.0 with one
endpoint; a descriptor for `x` at version 1.0.0 arrives with two fresh
endpoints.  The source keeps only the existing endpoint: the incoming
endpoints are lost and the resulting endpoint count falls below
`max(|a.endpoints|, |b.endpoints|)`, contradicting the claim. -/
theorem claim_C1_counterexample :
    (((({} : ManagerM).addAddonProps
          { id := "x", version := some (2, 0, 0), endpoints := ["https://e2"] }).addAddonProps
          { id := "x", version := some (1, 0, 0),
            endpoints := ["https://e1", "https://e3"] }).getAddon "x").map
        (fun a => a.props.endpoints) = some ["https://e2"] ∧
    "https://e1" ∉ (["https://e2"] : List String) ∧
    ¬max (["https://e1", "https://e3"] : List String).length
        (["https://e2"] : List String).length ≤ (["https://e2"] : List String).length := by
  refine ⟨by decide, by decide, by decide⟩

/-- C1 witness: the claim scenario — version 1.0.0 with endpoint `E1` is
registered, then version 2.0.0 with endpoint `E2` arrives; the merged
entry wins with 2.0.0 and endpoints `[E2, E1]`. -/
theorem claim_C1_witness :
    (∀ a ∈ ([] : List AddonClassM), a.props.id ≠ "x") ∧
    fixOldClass.props.id = "x" ∧
    ∃ merged : AddonClassM,
      (ManagerM.addAddonProps ⟨[] ++ fixOldClass :: [], false⟩
          { id := "x", version := some (2, 0, 0), endpoints := ["https://e2"] }).addons
        = [] ++ merged :: [] ∧
      merged.props.id = "x" ∧
      (fixOldClass.isNewerThan (some (2, 0, 0)) = false →
        merged.props.version = some (2, 0, 0) ∧
        merged.props.endpoints
          = uniqFirst ((["https://e2"] ++ fixOldClass.getEndpoints).map stripAddonUrl) ∧
        (∀ e ∈ fixOldClass.getEndpoints, stripAddonUrl e ∈ merged.props.endpoints) ∧
        (∀ e ∈ ["https://e2"], stripAddonUrl e ∈ merged.props.endpoints) ∧
        ((["https://e2"] : List String).Nodup →
          (∀ e ∈ ["https://e2"], stripAddonUrl e = e) →
          fixOldClass.getEndpoints.Nodup →
          (∀ e ∈ fixOldClass.getEndpoints, stripAddonUrl e = e) →
          max (["https://e2"] : List String).length fixOldClass.getEndpoints.length
            ≤ merged.props.endpoints.length)) ∧
      (fixOldClass.isNewerThan (some (2, 0, 0)) = true →
        merged.props.version = fixOldClass.props.version ∧
        (∀ e, e ∈ merged.props.endpoints ↔ e ∈ fixOldClass.getEndpoints.map stripAddonUrl)) :=
  ⟨by decide, by decide,
    claim_C1_theorem [] [] fixOldClass
      { id := "x", version := some (2, 0, 0), endpoints := ["https://e2"] }
      false (by decide) (by decide) (by decide)⟩

/-! ### Lemmas for the endpoint failover loop (C5, C10) -/

theorem mem_rotateOnError (l : List String) (e x : String) :
    x ∈ rotateOnError l e ↔ x ∈ l := by
  unfold rotateOnError
  split
  · next h =>
    cases l with
    | nil => simp at h
    | cons a t =>
      have : a = e := by simpa using h
      subst this
      simp [List.mem_append, List.mem_cons, or_comm]
  · exact Iff.rfl

theorem toFinset_rotateOnError (l : List String) (e : String) :
    (rotateOnError l e).toFinset = l.toFinset := by
  ext x
  simp [List.mem_toFinset, mem_rotateOnError]

theorem pickUntried_some {eps tried : List String} {e : String}
    (h : pickUntried eps tried = some e) : e ∈ eps ∧ e ∉ tried := by
  refine ⟨List.mem_of_find?_eq_some h, ?_⟩
  have := List.find?_some h
  simpa using this

theorem pickUntried_none_of_subset {eps tried : List String}
    (h : ∀ e ∈ eps, e ∈ tried) : pickUntried eps tried = none := by
  refine List.find?_eq_none.2 fun x hx => ?_
  simpa using h x hx

/-- Fuel sufficiency and the per-run behaviour of the iterator: with
more fuel than untried endpoints, the loop never runs out of fuel, the
endpoint set of the descriptor is preserved, and the new part of the
trace is duplicate-free, drawn from the endpoint list, and disjoint
from the already-tried set. -/
theorem callLoopF_spec {α : Type} (oracle : String → Except String α)
    (eng : Engine) (sdk : Option SemVer) (act : String) :
    ∀ (fuel : Nat) (eps tried : List String) (le : Option String) (tr : List String),
      (eps.toFinset \ tried.toFinset).card < fuel →
      ∃ res feps new, callLoopF oracle eng sdk act fuel eps tried le tr = (res, feps, tr ++ new) ∧
        res ≠ .fuelOut ∧ feps.toFinset = eps.toFinset ∧ new.Nodup ∧
        (∀ e ∈ new, e ∈ eps ∧ e ∉ tried) := by
  intro fuel
  induction fuel with
  | zero => intro eps tried le tr h; exact absurd h (by simp)
  | succ fuel ih =>
    intro eps tried le tr h
    simp only [callLoopF]
    cases hp : pickUntried eps tried with
    | none =>
      cases le with
      | none =>
        exact ⟨.err "No working endpoint found", eps, [], by simp, by simp, rfl,
          List.nodup_nil, by simp⟩
      | some m =>
        exact ⟨.err m, eps, [], by simp, by simp, rfl, List.nodup_nil, by simp⟩
    | some e =>
      obtain ⟨hmem, htried⟩ := pickUntried_some hp
      cases ho : oracle (callUrl eng sdk act e) with
      | ok data =>
        exact ⟨.ok data e (callUrl eng sdk act e), eps, [e], by simp [ho], by simp, rfl,
          List.nodup_singleton e, by simp [hmem, htried]⟩
      | error msg =>
        have hcard : ((rotateOnError eps e).toFinset \ (tried ++ [e]).toFinset).card < fuel := by
          rw [toFinset_rotateOnError]
          have he : e ∈ eps.toFinset \ tried.toFinset := by
            simp [List.mem_toFinset, hmem, htried]
          have heq : eps.toFinset \ (tried ++ [e]).toFinset
              = (eps.toFinset \ tried.toFinset).erase e := by
            ext x
            simp only [Finset.mem_sdiff, List.toFinset_append, Finset.mem_union,
              Finset.mem_erase, List.toFinset_cons, List.toFinset_nil,
              Finset.mem_insert, List.mem_toFinset]
            constructor
            · rintro ⟨h1, h2⟩
              push_neg at h2
              rcases h2 with ⟨h2, h3⟩
              refine ⟨by simpa using h3, h1, h2⟩
            · rintro ⟨h1, h2, h3⟩
              refine ⟨h2, ?_⟩
              push_neg
              exact ⟨h3, by simpa using h1⟩
          rw [heq, Finset.card_erase_of_mem he]
          have hpos : 0 < (eps.toFinset \ tried.toFinset).card := Finset.card_pos.2 ⟨e, he⟩
          omega
        obtain ⟨res, feps, new, heq, hres, hfin, hnd, hmemnew⟩ :=
          ih (rotateOnError eps e) (tried ++ [e]) (some msg) (tr ++ [e]) hcard
        refine ⟨res, feps, e :: new, ?_, hres, by rw [hfin, toFinset_rotateOnError], ?_, ?_⟩
        · simp only [ho, heq, List.append_assoc, List.singleton_append]
        · refine List.nodup_cons.2 ⟨fun hcontra => ?_, hnd⟩
          exact (hmemnew e hcontra).2 (by simp)
        · intro x hx
          rcases List.mem_cons.1 hx with rfl | hx
          · exact ⟨hmem, htried⟩
          · obtain ⟨h1, h2⟩ := hmemnew x hx
            refine ⟨(mem_rotateOnError eps e x).1 h1, fun hc => h2 (by simp [hc])⟩

/-- C10: the failover iterator terminates (the supplied fuel is never
exhausted) and yields each endpoint at most once, even though `onError`
reorders the endpoint list while iterating; the endpoint set of the
descriptor is preserved. -/
theorem claim_C10_theorem {α : Type} (oracle : String → Except String α)
    (eng : Engine) (sdk : Option SemVer) (act : String) (eps : List String) :
    ∃ res feps trace, callEndpoints oracle eng sdk act eps = (res, feps, trace) ∧
      res ≠ .fuelOut ∧ trace.Nodup ∧ (∀ e ∈ trace, e ∈ eps) ∧
      feps.toFinset = eps.toFinset := by
  have h : (eps.toFinset \ ([] : List String).toFinset).card < eps.length + 1 := by
    simp only [List.toFinset_nil, Finset.sdiff_empty]
    exact Nat.lt_succ_of_le eps.toFinset_card_le
  obtain ⟨res, feps, new, heq, hres, hfin, hnd, hmem⟩ :=
    callLoopF_spec oracle eng sdk act (eps.length + 1) eps [] none [] h
  exact ⟨res, feps, new, by simpa using heq, hres, hnd, fun e he => (hmem e he).1, hfin⟩

theorem callLoopF_allfail_aux {α : Type} (oracle : String → Except String α)
    (eng : Engine) (sdk : Option SemVer) (act : String) (errOf : String → String) :
    ∀ (rest done : List String) (fuel : Nat), rest.length < fuel →
      (done ++ rest).Nodup →
      (∀ e ∈ rest, oracle (callUrl eng sdk act e) = .error (errOf e)) →
      ∀ (le : Option String) (tr : List String),
      callLoopF oracle eng sdk act fuel (rest ++ done) done le tr =
        ((match rest.getLast? with
          | some l => CallResult.err (errOf l)
          | none =>
            match le with
            | some m => CallResult.err m
            | none => CallResult.err "No working endpoint found"),
         done ++ rest, tr ++ rest) := by
  intro rest
  induction rest with
  | nil =>
    intro done fuel hfuel hnd hfail le tr
    match fuel, hfuel with
    | fuel + 1, _ =>
      have hpick : pickUntried done done = none :=
        pickUntried_none_of_subset (by simp)
      cases le <;> simp [callLoopF, hpick]
  | cons e rest ih =>
    intro done fuel hfuel hnd hfail le tr
    match fuel, hfuel with
    | fuel + 1, hfuel =>
      have hnotin : e ∉ done := by
        intro hc
        exact (List.disjoint_of_nodup_append hnd) hc (by simp)
      have hpick : pickUntried (e :: (rest ++ done)) done = some e := by
        unfold pickUntried
        simp [List.find?, hnotin]
      have hrot : rotateOnError (e :: (rest ++ done)) e = rest ++ (done ++ [e]) := by
        unfold rotateOnError
        simp
      have hnd' : ((done ++ [e]) ++ rest).Nodup := by
        have h : done ++ e :: rest = (done ++ [e]) ++ rest := by simp
        exact h ▸ hnd
      have hfail' : ∀ x ∈ rest, oracle (callUrl eng sdk act x) = .error (errOf x) :=
        fun x hx => hfail x (List.mem_cons_of_mem _ hx)
      have hih := ih (done ++ [e]) fuel (Nat.lt_of_succ_lt_succ hfuel) hnd' hfail'
        (some (errOf e)) (tr ++ [e])
      simp only [callLoopF, List.cons_append, hpick, hfail e (List.mem_cons_self _ _), hrot]
      rw [hih]
      cases rest with
      | nil => simp
      | cons f rest' =>
        have hgl : (e :: f :: rest').getLast? = (f :: rest').getLast? :=
          List.getLast?_cons_cons
        rw [hgl, List.getLast?_eq_getLast_of_ne_nil (l := f :: rest') (by simp)]
        simp

theorem callLoopF_firstOk_aux {α : Type} (oracle : String → Except String α)
    (eng : Engine) (sdk : Option SemVer) (act : String) (errOf : String → String)
    (data : α) (okEp : String) :
    ∀ (fails done rest : List String) (fuel : Nat), fails.length < fuel →
      (done ++ fails ++ okEp :: rest).Nodup →
      (∀ e ∈ fails, oracle (callUrl eng sdk act e) = .error (errOf e)) →
      oracle (callUrl eng sdk act okEp) = .ok data →
      ∀ (le : Option String) (tr : List String),
      callLoopF oracle eng sdk act fuel ((fails ++ okEp :: rest) ++ done) done le tr =
        (.ok data okEp (callUrl eng sdk act okEp),
         (okEp :: rest) ++ done ++ fails, tr ++ fails ++ [okEp]) := by
  intro fails
  induction fails with
  | nil =>
    intro done rest fuel hfuel hnd hfail hok le tr
    match fuel, hfuel with
    | fuel + 1, _ =>
      have hnotin : okEp ∉ done := by
        intro hc
        exact (List.disjoint_of_nodup_append hnd)
          (show okEp ∈ done ++ [] by simp [hc]) (by simp)
      have hpick : pickUntried (okEp :: (rest ++ done)) done = some okEp := by
        unfold pickUntried
        simp [List.find?, hnotin]
      simp only [callLoopF, List.nil_append, List.cons_append, hpick, hok]
      simp
  | cons e fails ih =>
    intro done rest fuel hfuel hnd hfail hok le tr
    match fuel, hfuel with
    | fuel + 1, hfuel =>
      have hnotin : e ∉ done := by
        intro hc
        exact (List.disjoint_of_nodup_append hnd.of_append_left) hc (by simp)
      have hpick : pickUntried (e :: (fails ++ okEp :: (rest ++ done))) done = some e := by
        unfold pickUntried
        simp [List.find?, hnotin]
      have hnd' : ((done ++ [e]) ++ fails ++ okEp :: rest).Nodup := by
        have h : done ++ (e :: fails) ++ okEp :: rest
            = (done ++ [e]) ++ fails ++ okEp :: rest := by simp
        exact h ▸ hnd
      have hfail' : ∀ x ∈ fails, oracle (callUrl eng sdk act x) = .error (errOf x) :=
        fun x hx => hfail x (List.mem_cons_of_mem _ hx)
      have hrot : rotateOnError (e :: (fails ++ okEp :: (rest ++ done))) e
          = fails ++ okEp :: (rest ++ (done ++ [e])) := by
        unfold rotateOnError
        simp
      have hih := ih (done ++ [e]) rest fuel (Nat.lt_of_succ_lt_succ hfuel) hnd' hfail' hok
        (some (errOf e)) (tr ++ [e])
      simp only [List.append_assoc, List.cons_append] at hih ⊢
      simp only [callLoopF, hpick, hfail e (List.mem_cons_self _ _), hrot]
      rw [hih]
      simp

/-- C5 (amended): for a non-bootstrap action the endpoints are tried one
at a time in the descriptor's current preference order; each failure is
recorded and the failing endpoint is rotated to the end of the
descriptor's list.  When some endpoint succeeds after `fails` failures,
the call returns its data and the descriptor's list ends up with every
failed endpoint moved behind the remaining ones.  When every endpoint
fails, the call raises the **last recorded error** (the generator
re-throws `lastError`); the "no working endpoint" error is raised only
when the endpoint list is empty. -/
theorem claim_C5_theorem {α : Type} (oracle : String → Except String α)
    (eng : Engine) (sdk : Option SemVer) (act : String) (errOf : String → String)
    (eps fails rest : List String) (okEp : String) (data : α) :
    (eps.Nodup → (∀ e ∈ eps, oracle (callUrl eng sdk act e) = .error (errOf e)) →
      callEndpoints oracle eng sdk act eps =
        ((match eps.getLast? with
          | some l => CallResult.err (errOf l)
          | none => CallResult.err "No working endpoint found"), eps, eps)) ∧
    ((fails ++ okEp :: rest).Nodup →
      (∀ e ∈ fails, oracle (callUrl eng sdk act e) = .error (errOf e)) →
      oracle (callUrl eng sdk act okEp) = .ok data →
      callEndpoints oracle eng sdk act (fails ++ okEp :: rest) =
        (.ok data okEp (callUrl eng sdk act okEp),
         (okEp :: rest) ++ fails, fails ++ [okEp])) := by
  constructor
  · intro hnd hfail
    have := callLoopF_allfail_aux oracle eng sdk act errOf eps [] (eps.length + 1)
      (Nat.lt_succ_self _) (by simpa using hnd) hfail none []
    unfold callEndpoints
    rw [show eps ++ [] = eps by simp] at this
    rw [this]
    cases h : eps.getLast? <;> simp
  · intro hnd hfail hok
    have hlen : fails.length < (fails ++ okEp :: rest).length + 1 := by
      simp [List.length_append]
      omega
    have := callLoopF_firstOk_aux oracle eng sdk act errOf data okEp fails [] rest
      ((fails ++ okEp :: rest).length + 1) hlen (by simpa using hnd) hfail hok none []
    unfold callEndpoints
    rw [show (fails ++ okEp :: rest) ++ [] = fails ++ okEp :: rest by simp] at this
    rw [this]
    simp

/-- C5 counterexample: one endpoint, its request fails with "boom"; the
call raises "boom", not "No working endpoint found" as the claim
states. -/
theorem claim_C5_counterexample :
    (callEndpoints (fun _ => (Except.error "boom" : Except String String))
        Engine.mediahubmx none "catalog" ["https://a"]).1 = CallResult.err "boom" ∧
    (CallResult.err "boom" : CallResult String) ≠ CallResult.err "No working endpoint found" := by
  exact ⟨by decide, by decide⟩

/-- C5 witness: endpoint `https://a` fails and `https://b` succeeds; the
call returns the data from `https://b`, the failed endpoint is rotated
behind it on the descriptor, and the trace shows the original order. -/
theorem claim_C5_witness :
    (["https://a"] ++ "https://b" :: []).Nodup ∧
    callEndpoints fixCallOracle Engine.mediahubmx none "catalog"
        (["https://a"] ++ "https://b" :: []) =
      (.ok "D" "https://b" (callUrl .mediahubmx none "catalog" "https://b"),
       ("https://b" :: []) ++ ["https://a"], ["https://a"] ++ ["https://b"]) :=
  ⟨by decide,
    (claim_C5_theorem fixCallOracle .mediahubmx none "catalog" fixErrOf
        [] ["https://a"] [] "https://b" "D").2
      (by decide)
      (by
        intro e he
        simp only [List.mem_singleton] at he
        subst he
        rfl)
      (by rfl)⟩

/-! ### Lemmas for the task sub-protocol loop (C6) -/

theorem taskLoopFrom_chain (handlers : String → Option (String → Except String String))
    (validate : String → Except String String) (url : String) (v : String) :
    ∀ (ts : List WireData), (∀ t ∈ ts, t.isTaskReq = true) →
      ∀ (posts : List TaskPost) (invoked : List String),
      taskLoopFrom handlers validate url posts invoked (ts ++ [WireData.final none v]) =
        (validate v).map fun r =>
          (r, posts ++ ts.map (expectedPost handlers url),
            invoked ++ ts.filterMap (invokedOf handlers)) := by
  intro ts
  induction ts with
  | nil =>
    intro _ posts invoked
    show taskLoop handlers validate url (.final none v) [] posts invoked = _
    cases hv : validate v <;> simp [taskLoop, hv]
  | cons t ts ih =>
    intro hts posts invoked
    have htask := hts t (List.mem_cons_self _ _)
    match t, htask with
    | .taskRequest taskId ty payload, _ =>
      have hts' : ∀ x ∈ ts, x.isTaskReq = true :=
        fun x hx => hts x (List.mem_cons_of_mem _ hx)
      show taskLoop handlers validate url (.taskRequest taskId ty payload)
          (ts ++ [WireData.final none v]) posts invoked = _
      cases hh : handlers ty with
      | none =>
        have hstep : taskLoop handlers validate url (.taskRequest taskId ty payload)
            (ts ++ [WireData.final none v]) posts invoked
            = taskLoopFrom handlers validate url
                (posts ++
                  [{ url := url, taskId := taskId
                     errPayload := some ("Unknown task type " ++ ty), okPayload := none }])
                invoked (ts ++ [WireData.final none v]) := by
          cases ts with
          | nil => simp [taskLoop, taskLoopFrom, hh]
          | cons d rest => simp [taskLoop, taskLoopFrom, hh]
        rw [hstep, ih hts' _ _]
        cases validate v <;>
          simp [expectedPost, invokedOf, hh]
      | some fn =>
        cases hf : fn payload with
        | ok r =>
          have hstep : taskLoop handlers validate url (.taskRequest taskId ty payload)
              (ts ++ [WireData.final none v]) posts invoked
              = taskLoopFrom handlers validate url
                  (posts ++
                    [{ url := url, taskId := taskId
                       errPayload := none, okPayload := some r }])
                  (invoked ++ [ty]) (ts ++ [WireData.final none v]) := by
            cases ts with
            | nil => simp [taskLoop, taskLoopFrom, hh, hf]
            | cons d rest => simp [taskLoop, taskLoopFrom, hh, hf]
          rw [hstep, ih hts' _ _]
          cases validate v <;>
            simp [expectedPost, invokedOf, hh, hf]
        | error m =>
          have hstep : taskLoop handlers validate url (.taskRequest taskId ty payload)
              (ts ++ [WireData.final none v]) posts invoked
              = taskLoopFrom handlers validate url
                  (posts ++
                    [{ url := url, taskId := taskId
                       errPayload := some m, okPayload := none }])
                  (invoked ++ [ty]) (ts ++ [WireData.final none v]) := by
            cases ts with
            | nil => simp [taskLoop, taskLoopFrom, hh, hf]
            | cons d rest => simp [taskLoop, taskLoopFrom, hh, hf]
          rw [hstep, ih hts' _ _]
          cases validate v <;>
            simp [expectedPost, invokedOf, hh, hf]

/-- C6: a call whose response sequence is task requests followed by one
final (non-task) response posts exactly one task response per task
request, all to the same resolved URL; the handler of each task is
executed exactly once, in sequence order (and not at all when no handler
is registered); a missing handler or a handler error is converted into
the posted task response's error payload — the call itself does not
raise — and the loop continues; the call returns the validated final
response. -/
theorem claim_C6_theorem (handlers : String → Option (String → Except String String))
    (validate : String → Except String String) (url : String) (v : String)
    (ts : List WireData) (hts : ∀ t ∈ ts, t.isTaskReq = true) :
    taskLoopRun handlers validate url (ts ++ [WireData.final none v]) =
      (validate v).map fun r =>
        (r, ts.map (expectedPost handlers url), ts.filterMap (invokedOf handlers)) := by
  have := taskLoopFrom_chain handlers validate url v ts hts [] []
  simpa [taskLoopRun] using this

/-- C6 witness: a fetch task and a toast task followed by a final
response; both handlers run exactly once in order, two task responses
are posted to the call URL, and the final response is returned. -/
theorem claim_C6_witness :
    (∀ t ∈ [WireData.taskRequest "1" "fetch" "x", WireData.taskRequest "2" "toast" "y"],
      t.isTaskReq = true) ∧
    taskLoopRun fixHandlers Except.ok "https://u/x.json"
        ([WireData.taskRequest "1" "fetch" "x", WireData.taskRequest "2" "toast" "y"]
          ++ [WireData.final none "final"]) =
      (Except.ok "final").map fun r =>
        (r,
          [WireData.taskRequest "1" "fetch" "x",
            WireData.taskRequest "2" "toast" "y"].map (expectedPost fixHandlers "https://u/x.json"),
          [WireData.taskRequest "1" "fetch" "x",
            WireData.taskRequest "2" "toast" "y"].filterMap (invokedOf fixHandlers)) :=
  ⟨by decide,
    claim_C6_theorem fixHandlers Except.ok "https://u/x.json" "final"
      [WireData.taskRequest "1" "fetch" "x", WireData.taskRequest "2" "toast" "y"]
      (by decide)⟩

/-! ### Lemmas for the endpoint analyzer (C9) -/

theorem analyzeScan_eq_findSome
    (probe : String → Engine → Except String (List AddonResponseResult)) :
    ∀ todo : List (String × Engine),
      analyzeScan probe todo = todo.findSome? fun ue => (probe ue.1 ue.2).toOption := by
  intro todo
  induction todo with
  | nil => rfl
  | cons ue rest ih =>
    show (match probe ue.1 ue.2 with
      | .ok r => some r
      | .error _ => analyzeScan probe rest) = _
    rw [List.findSome?_cons]
    cases probe ue.1 ue.2 <;> simp [Except.toOption, ih]

/-- C9: when every probe of the de-duplicated URL×engine todo list ends
in an error, the analyzer returns `none`; in general the result is the
first successful classification in probe-start order, so one probe's
error never prevents the remaining probes from being tried. -/
theorem claim_C9_theorem (probe : String → Engine → Except String (List AddonResponseResult))
    (endpoints : List String) (engine : Option Engine) :
    ((∀ ue ∈ analyzeTodo endpoints engine, ∃ msg, probe ue.1 ue.2 = .error msg) →
      analyzeEndpointsM probe endpoints engine = none) ∧
    analyzeEndpointsM probe endpoints engine =
      (analyzeTodo endpoints engine).findSome? fun ue => (probe ue.1 ue.2).toOption := by
  refine ⟨?_, analyzeScan_eq_findSome probe _⟩
  intro hfail
  unfold analyzeEndpointsM
  rw [analyzeScan_eq_findSome]
  refine List.findSome?_eq_none_iff.2 fun ue hue => ?_
  obtain ⟨msg, hmsg⟩ := hfail ue hue
  simp [hmsg, Except.toOption]

/-- C9 witness: a probe oracle that always errors makes the analyzer
return `none` for an endpoint probed in both dialects. -/
theorem claim_C9_witness :
    analyzeEndpointsM (fun _ _ => Except.error "down") ["https://a"] none = none :=
  (claim_C9_theorem (fun _ _ => Except.error "down") ["https://a"] none).1
    fun _ _ => ⟨"down", rfl⟩

/-! ### Lemmas for `load` input handling (C8) -/

theorem isOkE_map {ε α β : Type} (f : α → β) (e : Except ε α) :
    isOkE (e.map f) = isOkE e := by
  cases e <;> rfl

theorem processInputs_isOk (cfg : LoadCfg) (oracles : LoadOracles) (sf : Nat) :
    ∀ (inputs : List LoadInput) (ri : Nat) (st : LoadState),
      isOkE (processInputs cfg oracles sf inputs ri st) = true ↔
        ∀ i ∈ inputs, i.isEmptyInput = false := by
  intro inputs
  induction inputs with
  | nil =>
    intro ri st
    simp [processInputs, isOkE]
  | cons i rest ih =>
    intro ri st
    cases hc : i.caseOf with
    | empty =>
      simp only [processInputs, hc]
      constructor
      · intro h
        simp [isOkE] at h
      · intro h
        have hi := h i (List.mem_cons_self _ _)
        simp [LoadInput.isEmptyInput, hc] at hi
    | viaClass ac =>
      simp only [processInputs, hc, ih]
      simp [List.forall_mem_cons, LoadInput.isEmptyInput, hc]
    | viaProps p =>
      simp only [processInputs, hc, ih]
      simp [List.forall_mem_cons, LoadInput.isEmptyInput, hc]
    | viaEndpoints es =>
      simp only [processInputs, hc, ih]
      simp [List.forall_mem_cons, LoadInput.isEmptyInput, hc]
    | viaUrl u =>
      simp only [processInputs, hc, ih]
      simp [List.forall_mem_cons, LoadInput.isEmptyInput, hc]
    | viaUser u =>
      simp only [processInputs, hc]
      split
      · rw [ih]
        simp [List.forall_mem_cons, LoadInput.isEmptyInput, hc]
      · rw [ih]
        simp [List.forall_mem_cons, LoadInput.isEmptyInput, hc]

/-- C8: `load` completes without raising exactly when no input element
is empty (all five input fields unset, with JS truthiness for the
string-valued fields); probe, bootstrap and requirement-resolution
failures are absorbed (they are reported through the error callback
only, regardless of the network oracles). -/
theorem claim_C8_theorem (cfg : LoadCfg) (oracles : LoadOracles) (sf df : Nat)
    (m : ManagerM) (inputs : List LoadInput) (avail : List Addon) :
    isOkE (loadM cfg oracles sf df m inputs avail) = true ↔
      ∀ i ∈ inputs, i.isEmptyInput = false := by
  show isOkE ((loadCore cfg oracles sf df m inputs avail).map _) = true ↔ _
  rw [isOkE_map]
  show isOkE ((processInputs cfg oracles sf _ 0 _).map _) = true ↔ _
  rw [isOkE_map, processInputs_isOk]
  constructor
  · intro h i hi
    exact h i (List.mem_append_right _ hi)
  · intro h i hi
    rcases List.mem_append.1 hi with hm | hin
    · obtain ⟨a, _, rfl⟩ := List.mem_map.1 hm
      rfl
    · exact h i hin

/-! ### The depth invariant of discovery loads (C3) -/

theorem availLookup_pathOk {base N} {st : LoadState} {id : String} {av : AddonClassM}
    (h : StOk base N st) (hl : availLookup st id = some av) :
    PathOk base N av.infos.requirePath := by
  unfold availLookup at hl
  rw [Option.map_eq_some'] at hl
  obtain ⟨kv, hk, hkv⟩ := hl
  rw [← hkv]
  exact h.2.1 kv (List.mem_of_find?_eq_some hk)

theorem availSet_ok {base N} {st : LoadState} {id : String} {a : AddonClassM}
    (h : StOk base N st) (ha : PathOk base N a.infos.requirePath) :
    StOk base N (availSet st id a) := by
  unfold availSet
  split
  · refine ⟨h.1, ?_, h.2.2⟩
    intro kv hkv
    rw [List.mem_map] at hkv
    obtain ⟨kv0, hk0, hkv0⟩ := hkv
    rw [← hkv0]
    split
    · exact ha
    · exact h.2.1 kv0 hk0
  · refine ⟨h.1, ?_, h.2.2⟩
    intro kv hkv
    rcases List.mem_append.1 hkv with hk | hk
    · exact h.2.1 kv hk
    · rw [List.mem_singleton.1 hk]
      exact ha

theorem ignoreAdd_ok {base N} {st : LoadState} {s : String}
    (h : StOk base N st) : StOk base N (ignoreAdd st s) := by
  unfold ignoreAdd
  split
  · exact h
  · exact h

theorem ignoreAddAll_ok {base N} {st : LoadState} {ss : List String}
    (h : StOk base N st) : StOk base N (ignoreAddAll st ss) := by
  unfold ignoreAddAll
  induction ss generalizing st with
  | nil => exact h
  | cons x xs ih => exact ih (ignoreAdd_ok h)

theorem rootSet_ok {base N} {st : LoadState} {i : Nat} {id : String}
    (h : StOk base N st) : StOk base N (rootSet st i id) := by
  unfold rootSet
  split
  · exact h
  · exact h

theorem stOk_jobs_append {base N} {st : LoadState} {j : LoadJob}
    (h : StOk base N st) (hj : JobOk base N j) :
    StOk base N { st with jobs := st.jobs ++ [j] } := by
  refine ⟨h.1, h.2.1, ?_⟩
  intro j' hj'
  rcases List.mem_append.1 hj' with hk | hk
  · exact h.2.2 j' hk
  · rw [List.mem_singleton.1 hk]
    exact hj

theorem addAddonClass_pres (P : AddonClassM → Prop) (m : ManagerM) (addon : AddonClassM)
    (idx : Option Nat) (hm : ∀ a ∈ m.addons, P a) (ha : P addon) :
    ∀ a ∈ (m.addAddonClass addon idx).addons, P a := by
  unfold ManagerM.addAddonClass
  cases hf : m.addons.findIdx? (fun other => other.props.id = addon.props.id) with
  | none =>
    intro a hmem
    rcases List.mem_append.1 hmem with hk | hk
    · rcases List.mem_append.1 hk with hk2 | hk2
      · exact hm a (List.mem_of_mem_take hk2)
      · rw [List.mem_singleton.1 hk2]
        exact ha
    · exact hm a (List.mem_of_mem_drop hk)
  | some i =>
    cases idx with
    | some pos =>
      intro a hmem
      rcases List.mem_append.1 hmem with hk | hk
      · rcases List.mem_append.1 hk with hk2 | hk2
        · have := List.mem_of_mem_take hk2
          rcases List.mem_append.1 this with hk3 | hk3
          · exact hm a (List.mem_of_mem_take hk3)
          · exact hm a (List.mem_of_mem_drop hk3)
        · rw [List.mem_singleton.1 hk2]
          exact ha
      · have := List.mem_of_mem_drop hk
        rcases List.mem_append.1 this with hk3 | hk3
        · exact hm a (List.mem_of_mem_take hk3)
        · exact hm a (List.mem_of_mem_drop hk3)
    | none =>
      intro a hmem
      rcases List.mem_or_eq_of_mem_set hmem with hk | hk
      · exact hm a hk
      · rw [hk]
        exact ha

theorem createAddonClass_pathOk (base : List (List String)) (N : Nat) (m : ManagerM)
    (props : Addon) (infos : AddonInfos) (ae : Option (List String)) (force : Bool)
    (hm : ∀ a ∈ m.addons, PathOk base N a.infos.requirePath)
    (hinfos : PathOk base N infos.requirePath) :
    PathOk base N (m.createAddonClass props infos ae force).infos.requirePath := by
  cases ae with
  | none =>
    unfold ManagerM.createAddonClass
    cases hf : m.addons.find? (fun addon => addon.props.id = props.id) with
    | none => exact hinfos
    | some old =>
      dsimp only
      split
      · exact hm old (List.mem_of_find?_eq_some hf)
      · exact hinfos
  | some es =>
    unfold ManagerM.createAddonClass
    cases hf : m.addons.find? (fun addon => addon.props.id = props.id) with
    | none => exact hinfos
    | some old =>
      dsimp only
      split
      · exact hm old (List.mem_of_find?_eq_some hf)
      · exact hinfos

theorem addAvailable_ok {base N} (st : LoadState) (props : Addon) (path : List String)
    (ae : Option (List String)) (h : StOk base N st) (hpath : PathOk base N path) :
    PathOk base N (addAvailable st props path ae).1.infos.requirePath ∧
      StOk base N (addAvailable st props path ae).2 := by
  unfold addAvailable
  cases hl : availLookup st props.id with
  | some av =>
    dsimp only
    by_cases hn : av.isNewerThan props.version = true
    · rw [if_pos hn]
      exact ⟨availLookup_pathOk h hl, h⟩
    · rw [if_neg hn]
      have hnew := createAddonClass_pathOk base N st.mgr props ⟨path⟩
        (some (ae.getD [] ++ av.getEndpoints)) false h.1 hpath
      exact ⟨hnew, availSet_ok h hnew⟩
  | none =>
    have hnew := createAddonClass_pathOk base N st.mgr props ⟨path⟩
      (some (ae.getD [])) false h.1 hpath
    exact ⟨hnew, availSet_ok h hnew⟩

theorem foldl_stOk {γ : Type} {base N} (f : LoadState → γ → LoadState)
    (hf : ∀ st x, StOk base N st → StOk base N (f st x)) :
    ∀ (l : List γ) (st : LoadState), StOk base N st → StOk base N (l.foldl f st) := by
  intro l
  induction l with
  | nil => intro st h; exact h
  | cons x xs ih => intro st h; exact ih _ (hf st x h)

theorem foldl_stOk_snd {β γ : Type} {base N} (f : β × LoadState → γ → β × LoadState)
    (hf : ∀ acc x, StOk base N acc.2 → StOk base N (f acc x).2) :
    ∀ (l : List γ) (p : β × LoadState), StOk base N p.2 → StOk base N (l.foldl f p).2 := by
  intro l
  induction l with
  | nil => intro p h; exact h
  | cons x xs ih => intro p h; exact ih _ (hf p x h)

theorem runSync_ok (cfg : LoadCfg) (base : List (List String))
    (hdisc : cfg.discover = true) :
    ∀ (fuel : Nat) (c : SyncCall) (st : LoadState),
      StOk base cfg.maxDepth st → CallOk base cfg.maxDepth c →
      StOk base cfg.maxDepth (runSync cfg fuel c st) := by
  intro fuel
  induction fuel with
  | zero => intro c st h _; exact h
  | succ fuel ih =>
    intro c st h hc
    cases c with
    | handleReq req eptype isKnown path rootIndex =>
      simp only [runSync]
      split
      · exact h
      · next hguard =>
        have hlen : path.length < cfg.maxDepth := by
          rw [hdisc] at hguard
          push_neg at hguard
          exact hguard (by trivial)
        have hpath : PathOk base cfg.maxDepth path := Or.inr hlen
        cases hfind : (st.available.map (·.2)).find?
            (fun other => other.matchesRequirement req) with
        | some other =>
          dsimp only
          obtain ⟨h1, h2⟩ := addAvailable_ok st other.props path
            (some (other.getEndpoints ++ req.endpoints)) h hpath
          split
          · refine ih _ _ h2 ?_
            exact ⟨h1, hpath⟩
          · refine ih _ _ h2 ?_
            exact h1
        | none =>
          dsimp only
          split
          · refine stOk_jobs_append ?_ hpath
            refine foldl_stOk_snd _ ?_ req.endpoints ([], st) h
            intro acc x hacc
            exact ignoreAdd_ok (ignoreAdd_ok hacc)
          · exact h
    | checkAdd addon isKnown path rootIndex =>
      simp only [runSync]
      split
      · exact h
      · have hc' : PathOk base cfg.maxDepth addon.infos.requirePath := hc
        have htail : ∀ st2 : LoadState, StOk base cfg.maxDepth st2 →
            StOk base cfg.maxDepth
              (let st3 := addon.getConvertedRequirements.foldl
                (fun st req => runSync cfg fuel
                  (.handleReq req .unknown isKnown (path ++ [addon.props.id]) rootIndex) st)
                st2
               if addon.props.isLegacyRepositoryAddon ∧ ¬st3.ignore.contains addon.props.id
               then
                 if ¬cfg.discover ∨ (path ++ [addon.props.id]).length < cfg.maxDepth then
                   let st4 := ignoreAdd st3 addon.props.id
                   { st4 with jobs := st4.jobs ++
                       [.repoJob addon (path ++ [addon.props.id])] }
                 else st3
               else st3) := by
          intro st2 h2
          have h3 : StOk base cfg.maxDepth
              (addon.getConvertedRequirements.foldl
                (fun st req => runSync cfg fuel
                  (.handleReq req .unknown isKnown (path ++ [addon.props.id]) rootIndex) st)
                st2) :=
            foldl_stOk _ (fun st' req h' => ih _ _ h' trivial) _ _ h2
          dsimp only
          split
          · split
            · exact stOk_jobs_append (ignoreAdd_ok h3) trivial
            · exact h3
          · exact h3
        have h1 : StOk base cfg.maxDepth
            { st with mgr := st.mgr.addAddonClass addon,
                      updates := st.updates ++ [addon.props.id] } :=
          ⟨addAddonClass_pres _ st.mgr addon none h.1 hc', h.2.1, h.2.2⟩
        cases hga : st.mgr.getAddon addon.props.id with
        | none =>
          cases rootIndex with
          | some ri =>
            dsimp only
            split
            · exact htail _ (rootSet_ok h1)
            · exact htail _ h1
          | none => exact htail _ h1
        | some other =>
          dsimp only
          by_cases hpe : other.props = addon.props
          · rw [if_pos hpe]
            cases rootIndex with
            | some ri =>
              dsimp only
              split
              · exact htail _ (rootSet_ok h)
              · exact htail _ h
            | none => exact htail _ h
          · rw [if_neg hpe]
            cases rootIndex with
            | some ri =>
              dsimp only
              split
              · exact htail _ (rootSet_ok h1)
              · exact htail _ h1
            | none => exact htail _ h1
    | spawnViaAddon addon isKnown path rootIndex =>
      simp only [runSync]
      obtain ⟨haddon, hpath⟩ := hc
      have h1 : StOk base cfg.maxDepth (ignoreAddAll st addon.getEndpoints) :=
        ignoreAddAll_ok h
      split
      · exact ih _ _ h1 haddon
      · exact stOk_jobs_append h1 hpath

theorem runJob_ok (cfg : LoadCfg) (oracles : LoadOracles) (base : List (List String))
    (hdisc : cfg.discover = true) (fuel : Nat) (j : LoadJob) (st : LoadState)
    (h : StOk base cfg.maxDepth st) (hj : JobOk base cfg.maxDepth j) :
    StOk base cfg.maxDepth (runJob cfg oracles fuel j st) := by
  cases j with
  | callJob addon isKnown path rootIndex =>
    simp only [runJob]
    cases oracles.callAddon addon with
    | error e => exact ⟨h.1, h.2.1, h.2.2⟩
    | ok res =>
      cases res with
      | none => exact ⟨h.1, h.2.1, h.2.2⟩
      | some res =>
        dsimp only
        obtain ⟨h1, h2⟩ := addAvailable_ok st res path (some addon.getEndpoints) h hj
        refine runSync_ok cfg base hdisc _ _ _ h2 ?_
        exact h1
  | endpointsJob urls eptype isKnown path rootIndex =>
    simp only [runJob]
    cases oracles.analyze urls eptype with
    | none => exact ⟨h.1, h.2.1, h.2.2⟩
    | some results =>
      dsimp only
      refine foldl_stOk _ ?_ results st h
      intro st' r h'
      dsimp only
      cases r.props with
      | some p =>
        dsimp only
        obtain ⟨h1, h2⟩ := addAvailable_ok st' p path none h' hj
        refine runSync_ok cfg base hdisc _ _ _ h2 ?_
        exact h1
      | none =>
        dsimp only
        cases r.endpoints with
        | some es =>
          refine runSync_ok cfg base hdisc _ _ _ h' ?_
          trivial
        | none => exact h'
  | repoJob addon path =>
    simp only [runJob]
    cases oracles.repository addon with
    | error e => exact ⟨h.1, h.2.1, h.2.2⟩
    | ok list =>
      dsimp only
      refine foldl_stOk _ ?_ list st h
      intro st' props h'
      refine runSync_ok cfg base hdisc _ _ _ h' ?_
      trivial

theorem drainJobs_ok (cfg : LoadCfg) (oracles : LoadOracles) (base : List (List String))
    (hdisc : cfg.discover = true) (sf : Nat) :
    ∀ (fuel : Nat) (st : LoadState), StOk base cfg.maxDepth st →
      StOk base cfg.maxDepth (drainJobs cfg oracles sf fuel st) := by
  intro fuel
  induction fuel with
  | zero => intro st h; exact h
  | succ fuel ih =>
    intro st h
    simp only [drainJobs]
    cases hjobs : st.jobs with
    | nil => exact h
    | cons j rest =>
      apply ih
      apply runJob_ok cfg oracles base hdisc
      · refine ⟨h.1, h.2.1, ?_⟩
        intro j' hj'
        exact h.2.2 j' (by rw [hjobs]; exact List.mem_cons_of_mem _ hj')
      · exact h.2.2 j (by rw [hjobs]; exact List.mem_cons_self _ _)

theorem processInputs_ok (cfg : LoadCfg) (oracles : LoadOracles) (base : List (List String))
    (hdisc : cfg.discover = true) (sf : Nat) (hbase : [] ∈ base) :
    ∀ (inputs : List LoadInput) (ri : Nat) (st : LoadState)
      (pairOut : LoadState × Nat),
      StOk base cfg.maxDepth st →
      (∀ i ∈ inputs, ∀ ac, i.caseOf = .viaClass ac →
        PathOk base cfg.maxDepth ac.infos.requirePath) →
      processInputs cfg oracles sf inputs ri st = .ok pairOut →
      StOk base cfg.maxDepth pairOut.1 := by
  intro inputs
  induction inputs with
  | nil =>
    intro ri st pairOut h _ hres
    cases hres
    exact h
  | cons i rest ih =>
    intro ri st pairOut h hin hres
    have hin' : ∀ i ∈ rest, ∀ ac, i.caseOf = .viaClass ac →
        PathOk base cfg.maxDepth ac.infos.requirePath :=
      fun i hi => hin i (List.mem_cons_of_mem _ hi)
    rw [processInputs] at hres
    cases hcase : i.caseOf with
    | viaClass ac =>
      rw [hcase] at hres
      dsimp only at hres
      have hac := hin i (List.mem_cons_self _ _) ac hcase
      have hpair : PathOk base cfg.maxDepth
            (if ac.immutable then (ac, st)
             else addAvailable st ac.props ac.infos.requirePath).1.infos.requirePath ∧
          StOk base cfg.maxDepth
            (if ac.immutable then (ac, st)
             else addAvailable st ac.props ac.infos.requirePath).2 := by
        by_cases him : ac.immutable = true
        · rw [if_pos him]
          exact ⟨hac, h⟩
        · rw [if_neg him]
          exact addAvailable_ok st ac.props ac.infos.requirePath none h hac
      refine ih _ _ _ ?_ hin' hres
      refine runSync_ok cfg base hdisc _ _ _ hpair.2 ?_
      exact ⟨hpair.1, hac⟩
    | viaProps p =>
      rw [hcase] at hres
      dsimp only at hres
      have hpair := addAvailable_ok st p [] none h (Or.inl hbase)
      refine ih _ _ _ ?_ hin' hres
      refine runSync_ok cfg base hdisc _ _ _ hpair.2 ?_
      exact ⟨hpair.1, Or.inl hbase⟩
    | viaEndpoints es =>
      rw [hcase] at hres
      dsimp only at hres
      refine ih _ _ _ ?_ hin' hres
      exact runSync_ok cfg base hdisc _ _ _ h trivial
    | viaUrl u =>
      rw [hcase] at hres
      dsimp only at hres
      refine ih _ _ _ ?_ hin' hres
      exact runSync_ok cfg base hdisc _ _ _ h trivial
    | viaUser u =>
      rw [hcase] at hres
      dsimp only at hres
      split at hres
      · exact ih _ _ _ h hin' hres
      · refine ih _ _ _ ?_ hin' hres
        exact runSync_ok cfg base hdisc _ _ _ h trivial
    | empty =>
      rw [hcase] at hres
      cases hres

/-- C3: depth bound in discovery mode.  For a discovery load
(`discover = true`, `maxDepth = N`) starting from a registry and inputs
whose own require-paths are all empty, every addon in the resulting
registry has a require-path of length at most `N`, and with `N = 0`
only addons with an empty require-path (roots) are registered.  The
hypotheses on the starting paths are needed: an `addonClass` input (or a
registry addon re-fed into the load) keeps its previously recorded
require-path, which `handleRequirement`'s depth guard never re-checks
(see the counterexample). -/
theorem claim_C3_theorem (N : Nat) (refresh : Refresh) (oracles : LoadOracles)
    (sf df : Nat) (m : ManagerM) (inputs : List LoadInput) (st : LoadState)
    (hm : ∀ a ∈ m.addons, a.infos.requirePath = [])
    (hin : ∀ i ∈ inputs, ∀ ac, i.caseOf = InputCase.viaClass ac →
      ac.infos.requirePath = [])
    (hres : loadM { discover := true, maxDepth := N, refresh := refresh }
      oracles sf df m inputs [] = .ok st) :
    ∀ a ∈ st.mgr.addons,
      a.infos.requirePath.length ≤ N ∧ (N = 0 → a.infos.requirePath = []) := by
  rw [loadM, loadCore] at hres
  dsimp only [List.foldl] at hres
  cases hp : processInputs { discover := true, maxDepth := N, refresh := refresh }
      oracles sf
      ((m.getAddons.map fun a => ({ addonClass := some a } : LoadInput)) ++ inputs) 0
      { mgr := m } with
  | error e =>
    rw [hp] at hres
    simp [Except.map] at hres
  | ok pair =>
    rw [hp] at hres
    simp only [Except.map, Except.ok.injEq] at hres
    have hstok0 : StOk [[]] N ({ mgr := m } : LoadState) := by
      refine ⟨?_, ?_, ?_⟩
      · intro a ha
        exact Or.inl (by rw [hm a ha]; exact List.mem_singleton.2 rfl)
      · intro kv hkv
        cases hkv
      · intro j hj
        cases hj
    have hallin : ∀ i ∈ (m.getAddons.map
          fun a => ({ addonClass := some a } : LoadInput)) ++ inputs,
        ∀ ac, i.caseOf = InputCase.viaClass ac → PathOk [[]] N ac.infos.requirePath := by
      intro i hi ac hac
      rcases List.mem_append.1 hi with hi | hi
      · rw [List.mem_map] at hi
        obtain ⟨a, ha, rfl⟩ := hi
        simp only [LoadInput.caseOf] at hac
        injection hac with hac
        subst hac
        exact Or.inl (by
          rw [hm a (List.mem_of_mem_filter ha)]
          exact List.mem_singleton.2 rfl)
      · exact Or.inl (by rw [hin i hi ac hac]; exact List.mem_singleton.2 rfl)
    have hstok := processInputs_ok _ oracles [[]] rfl sf
      (List.mem_singleton.2 rfl) _ 0 _ pair hstok0 hallin hp
    have hdrain := drainJobs_ok _ oracles [[]] rfl sf df pair.1 hstok
    intro a ha
    have hpa : PathOk [[]] N a.infos.requirePath := by
      refine hdrain.1 a ?_
      rw [← hres] at ha
      simpa using ha
    rcases hpa with hmem | hlt
    · have hnil : a.infos.requirePath = [] := List.mem_singleton.1 hmem
      rw [hnil]
      exact ⟨Nat.zero_le N, fun _ => rfl⟩
    · exact ⟨Nat.le_of_lt hlt, fun h0 => absurd (h0 ▸ hlt) (Nat.not_lt_zero _)⟩

/-- C3 counterexample: a discovery load with `maxDepth = 0` on a manager
whose registry holds an addon recorded earlier at require-path
`["p"]` completes with that addon still registered: a registered
non-root addon whose require-path length `1` exceeds `N = 0`, because
the re-fed `addonClass` input bypasses the depth guard. -/
theorem claim_C3_counterexample :
    (loadM { discover := true, maxDepth := 0 } fixOrcReload 10 10
        fixMgrReload [] []).map
        (fun st => st.mgr.addons.map fun a => (a.props.id, a.infos.requirePath)) =
      .ok [("c", ["p"])] ∧ ¬ (["p"] : List String).length ≤ 0 := by
  constructor
  · decide
  · decide

/-- C3 witness: a fresh discovery load (`maxDepth = 2`) of the
root/child pair through the theorem: the load succeeds and every
registered addon's require-path length is bounded by `2`. -/
theorem claim_C3_witness :
    ∃ st, loadM { discover := true, maxDepth := 2, refresh := .required }
        fixOrcRootChild 10 10 { addons := [] }
        [{ addonProps := some fixRoot }] [] = .ok st ∧
      ∀ a ∈ st.mgr.addons,
        a.infos.requirePath.length ≤ 2 ∧ (2 = 0 → a.infos.requirePath = []) := by
  cases hres : loadM { discover := true, maxDepth := 2, refresh := .required }
      fixOrcRootChild 10 10 { addons := [] }
      [{ addonProps := some fixRoot }] [] with
  | error e =>
    have hok : isOkE (loadM { discover := true, maxDepth := 2, refresh := .required }
        fixOrcRootChild 10 10 { addons := [] }
        [{ addonProps := some fixRoot }] []) = true := by decide
    rw [hres] at hok
    simp [isOkE] at hok
  | ok st =>
    refine ⟨st, rfl, ?_⟩
    refine claim_C3_theorem 2 .required fixOrcRootChild 10 10 { addons := [] }
      [{ addonProps := some fixRoot }] st ?_ ?_ hres
    · intro a ha
      cases ha
    · intro i hi ac hac
      rw [List.mem_singleton] at hi
      subst hi
      exact absurd hac (by simp [LoadInput.caseOf])

/-! ### The final ordering walk (C2) -/

theorem foldl_pres {α β : Type} (step : β → α → β) (P : β → Prop)
    (hmono : ∀ s i, P s → P (step s i)) :
    ∀ (l : List α) (init : β), P init → P (l.foldl step init) := by
  intro l
  induction l with
  | nil => intro init h; exact h
  | cons a t ih => intro init h; exact ih _ (hmono init a h)

theorem foldl_mem_of_elem {α β : Type} (step : β → α → β) (P : β → Prop)
    (hmono : ∀ s i, P s → P (step s i)) (i0 : α) (hstep : ∀ s, P (step s i0)) :
    ∀ (l : List α), i0 ∈ l → ∀ init : β, P (l.foldl step init) := by
  intro l
  induction l with
  | nil => intro h; cases h
  | cons a t ih =>
    intro hmem init
    rcases List.mem_cons.1 hmem with h | h
    · subst h
      exact foldl_pres step P hmono t _ (hstep init)
    · exact ih h _

theorem foldl_pres_mem {α β : Type} (step : β → α → β) (P : β → Prop) :
    ∀ (l : List α), (∀ s, P s → ∀ a ∈ l, P (step s a)) →
      ∀ init : β, P init → P (l.foldl step init) := by
  intro l
  induction l with
  | nil => intro _ init h; exact h
  | cons a t ih =>
    intro hmono init h
    exact ih (fun s hs b hb => hmono s hs b (List.mem_cons_of_mem _ hb)) _
      (hmono init h a (List.mem_cons_self _ _))

theorem sortIter_subset (A : List AddonClassM) :
    ∀ (fuel : Nat) (addon : AddonClassM) (sorted : List AddonClassM),
      sorted ⊆ sortIter A fuel addon sorted := by
  intro fuel
  induction fuel with
  | zero => intro addon sorted x hx; exact hx
  | succ fuel ih =>
    intro addon sorted
    simp only [sortIter]
    refine foldl_pres_mem _ (fun s => sorted ⊆ s) _ ?_ _ ?_
    · intro b hb req hreq
      refine foldl_pres_mem _ (fun s => sorted ⊆ s) _ ?_ _ hb
      intro b' hb' other hother
      split
      · exact hb'.trans (ih other b')
      · exact hb'
    · exact fun x hx => List.mem_append.2 (Or.inl hx)

theorem sortIter_succ_subset (A : List AddonClassM) (fuel : Nat) (addon : AddonClassM)
    (sorted : List AddonClassM) : sorted ++ [addon] ⊆ sortIter A (fuel + 1) addon sorted := by
  simp only [sortIter]
  refine foldl_pres_mem _ (fun s => sorted ++ [addon] ⊆ s) _ ?_ _ (fun x hx => hx)
  intro b hb req hreq
  refine foldl_pres_mem _ (fun s => sorted ++ [addon] ⊆ s) _ ?_ _ hb
  intro b' hb' other hother
  split
  · exact hb'.trans (sortIter_subset A fuel other b')
  · exact hb'

theorem sortIter_reach (R A : List AddonClassM) :
    ∀ (fuel : Nat) (addon : AddonClassM) (sorted : List AddonClassM),
      ReachChain R addon → (∀ x ∈ sorted, ReachChain R x) →
      ∀ x ∈ sortIter A fuel addon sorted, ReachChain R x := by
  intro fuel
  induction fuel with
  | zero => intro addon sorted _ hs; exact hs
  | succ fuel ih =>
    intro addon sorted ha hs
    simp only [sortIter]
    refine foldl_pres_mem _ (fun s => ∀ x ∈ s, ReachChain R x) _ ?_ _ ?_
    · intro b hb req hreq
      refine foldl_pres_mem _ (fun s => ∀ x ∈ s, ReachChain R x) _ ?_ _ hb
      intro b' hb' other hother
      split
      · next hcond =>
        exact ih other b' (ReachChain.step addon other ha ⟨req, hreq, hcond.2⟩) hb'
      · exact hb'
    · intro x hx
      rcases List.mem_append.1 hx with h | h
      · exact hs x h
      · rw [List.mem_singleton.1 h]
        exact ha

theorem sortRoots_reach (A : List AddonClassM) (rA : List (Nat × String)) (ri fuel : Nat) :
    ∀ x ∈ sortRoots A rA ri fuel, ReachChain (rootsOf A rA ri) x := by
  unfold sortRoots
  refine foldl_pres_mem _ (fun s => ∀ x ∈ s, ReachChain (rootsOf A rA ri) x) _ ?_ _ ?_
  · intro b hb i hi
    cases h1 : (rA.find? fun kv => kv.1 = i).map (·.2) with
    | none => exact hb
    | some id =>
      dsimp only
      cases h2 : A.find? (fun addon => addon.props.id = id) with
      | none => exact hb
      | some addon =>
        refine sortIter_reach _ A fuel addon b (ReachChain.root addon ?_) hb
        exact List.mem_filterMap.2 ⟨i, hi, by rw [h1]; exact h2⟩
  · intro x hx
    cases hx

theorem sortRoots_roots_mem (A : List AddonClassM) (rA : List (Nat × String))
    (ri fuel : Nat) : ∀ r ∈ rootsOf A rA ri, r ∈ sortRoots A rA ri (fuel + 1) := by
  intro r hr
  obtain ⟨i, hi, hf⟩ := List.mem_filterMap.1 hr
  obtain ⟨id, h1, h2⟩ := Option.bind_eq_some.1 hf
  unfold sortRoots
  refine foldl_mem_of_elem _ (fun s => r ∈ s) ?_ i ?_ (List.range ri) hi []
  · intro s j hj
    cases hj1 : (rA.find? fun kv => kv.1 = j).map (·.2) with
    | none => exact hj
    | some id' =>
      dsimp only
      cases hj2 : A.find? (fun addon => addon.props.id = id') with
      | none => exact hj
      | some addon => exact sortIter_subset A _ addon s hj
  · intro s
    rw [h1]
    dsimp only
    rw [h2]
    exact sortIter_succ_subset A fuel r s
      (List.mem_append.2 (Or.inr (List.mem_singleton.2 rfl)))

/-- C2: after a non-discovery load, the registry is exactly the output
of the depth-first requirement walk from the recorded roots
(`sortRoots`), every addon of the final registry is reachable from a
root along requirement edges, and every root addon is present.  The
claim's further clause — that the walk appends each visited addon
exactly once — fails: the walk pushes the current addon without
checking the output list, so an addon that is both a root and required
by an earlier root is appended twice (see the counterexample). -/
theorem claim_C2_theorem (cfg : LoadCfg) (oracles : LoadOracles) (sf df : Nat)
    (m : ManagerM) (inputs : List LoadInput) (avail : List Addon) (st : LoadState)
    (hdisc : cfg.discover = false)
    (hres : loadM cfg oracles sf df m inputs avail = .ok st) :
    ∃ pre ri, loadCore cfg oracles sf df m inputs avail = .ok (pre, ri) ∧
      st.mgr.addons =
        sortRoots pre.mgr.addons pre.rootAddons ri (pre.mgr.addons.length + 1) ∧
      (∀ a ∈ st.mgr.addons, ReachChain (rootsOf pre.mgr.addons pre.rootAddons ri) a) ∧
      (∀ r ∈ rootsOf pre.mgr.addons pre.rootAddons ri, r ∈ st.mgr.addons) := by
  rw [loadM] at hres
  cases hp : loadCore cfg oracles sf df m inputs avail with
  | error e =>
    rw [hp] at hres
    simp [Except.map] at hres
  | ok pair =>
    rw [hp] at hres
    simp only [Except.map, Except.ok.injEq] at hres
    rw [hdisc] at hres
    simp only [Bool.false_eq_true, if_false] at hres
    subst hres
    refine ⟨pair.1, pair.2, rfl, rfl, ?_, ?_⟩
    · intro a ha
      exact sortRoots_reach _ _ _ _ a ha
    · intro r hr
      exact sortRoots_roots_mem _ _ _ _ r hr

/-- C2 counterexample: two root inputs where the first requires the
second.  The walk pushes `r2` once as a requirement of `r1` and once
more as a root, so the final registry is `["r1", "r2", "r2"]` — an
addon appended twice, refuting "appending each visited addon exactly
once". -/
theorem claim_C2_counterexample :
    (loadM {} fixOrcDupRoots 10 10 { addons := [] }
        [{ addonProps := some fixR1 }, { addonProps := some fixR2 }] []).map
        (fun st => st.mgr.addons.map (·.props.id)) =
      .ok ["r1", "r2", "r2"] ∧
    ¬ (["r1", "r2", "r2"] : List String).Nodup := by
  constructor
  · decide
  · decide

/-- C2 witness: the specification's root/child scenario through the
theorem — the non-discovery load succeeds, its registry is the walk
output (concretely `["root", "child"]`), reachable and root-complete. -/
theorem claim_C2_witness :
    ∃ st, loadM {} fixOrcRootChild 10 10 { addons := [] }
        [{ addonProps := some fixRoot }] [] = .ok st ∧
      st.mgr.addons.map (·.props.id) = ["root", "child"] ∧
      ∃ pre ri, loadCore {} fixOrcRootChild 10 10 { addons := [] }
          [{ addonProps := some fixRoot }] [] = .ok (pre, ri) ∧
        st.mgr.addons =
          sortRoots pre.mgr.addons pre.rootAddons ri (pre.mgr.addons.length + 1) ∧
        (∀ a ∈ st.mgr.addons, ReachChain (rootsOf pre.mgr.addons pre.rootAddons ri) a) ∧
        (∀ r ∈ rootsOf pre.mgr.addons pre.rootAddons ri, r ∈ st.mgr.addons) := by
  cases hres : loadM {} fixOrcRootChild 10 10 { addons := [] }
      [{ addonProps := some fixRoot }] [] with
  | error e =>
    have hok : isOkE (loadM {} fixOrcRootChild 10 10 { addons := [] }
        [{ addonProps := some fixRoot }] []) = true := by decide
    rw [hres] at hok
    simp [isOkE] at hok
  | ok st =>
    refine ⟨st, rfl, ?_, ?_⟩
    · have hids : (loadM {} fixOrcRootChild 10 10 { addons := [] }
          [{ addonProps := some fixRoot }] []).map
          (fun st => st.mgr.addons.map (·.props.id)) = .ok ["root", "child"] := by decide
      rw [hres] at hids
      simpa [Except.map] using hids
    · exact claim_C2_theorem {} fixOrcRootChild 10 10 { addons := [] }
        [{ addonProps := some fixRoot }] [] st rfl hres

end MHX
